import Mathlib

/-!
Verification of the PostgreSQL user/role reconciliation controller
(controller.py) against its natural-language specification.

The controller's pure logic is shallowly embedded below:

* configuration constants (Config.SYSTEM_ROLES, defaults),
* the UserSpec record and the YAML-to-spec parser (parse_desired_users),
* the database queries (fetch_existing_users, fetch_existing_roles) as
  functions over an abstract pg_roles table,
* the SQL statement construction of create_user and _grant_privileges as
  lists of composable parts (mirroring the psycopg2 sql.SQL vs
  sql.Identifier distinction),
* one reconciliation cycle (reconcile_users) as a function producing the
  ordered list of database events (read queries and DDL statements) plus the
  per-cycle statistics and the state that gets persisted, and
* the state store (load_state / save_state) over a small file-system model,
  with the JSON text codec for the state file layout that save_state emits.
-/

namespace Controller

/-- Config.SYSTEM_ROLES: the fixed system-role denylist. -/
def SYSTEM_ROLES : List String :=
  ["postgres", "pg_monitor", "pg_read_all_settings", "pg_read_all_stats",
   "pg_stat_scan_tables", "pg_read_server_files", "pg_write_server_files",
   "pg_execute_server_program", "pg_signal_backend", "rds_superuser"]

/-- Config.DB_NAME default. -/
def DB_NAME : String := "postgres"

/-- Config.DB_USER default (the controller admin account). -/
def DB_USER : String := "postgres"

/-- UserSpec dataclass: username, database, roles, optional privileges
mapping (object identifier to privilege keywords; a Python dict is modelled
as an association list in insertion order). -/
structure UserSpec where
  username : String
  database : String
  roles : List String
  privileges : Option (List (String × List String)) := none
deriving DecidableEq, Repr

/-- A row of pg_roles: role name and its rolcanlogin flag. -/
structure PgRole where
  rolname : String
  rolcanlogin : Bool
deriving DecidableEq, Repr

/-- DatabaseClient.fetch_existing_users: the query
SELECT rolname FROM pg_roles WHERE rolname NOT IN (system_roles_list)
collected into a set.  Note the query has no rolcanlogin condition. -/
def fetch_existing_users (db : List PgRole) : List String :=
  (((db.map PgRole.rolname).filter (fun n => decide (n ∉ SYSTEM_ROLES)))).dedup

/-- DatabaseClient.fetch_existing_roles: the query additionally requires
AND NOT rolcanlogin. -/
def fetch_existing_roles (db : List PgRole) : List String :=
  ((((db.filter (fun r => !r.rolcanlogin)).map PgRole.rolname).filter
    (fun n => decide (n ∉ SYSTEM_ROLES)))).dedup

/-- Modelled from the spec: the operation the spec describes as
list_users, namely all roles WITH login capability minus the denylist.
Used only to compare the spec's description with fetch_existing_users. -/
def list_users_spec_version (db : List PgRole) : List String :=
  ((((db.filter (fun r => r.rolcanlogin)).map PgRole.rolname).filter
    (fun n => decide (n ∉ SYSTEM_ROLES)))).dedup

/-!
### SQL statement construction (DatabaseClient.create_user, _grant_privileges)

psycopg2 composes statements from parts: sql.SQL(s) is a raw snippet
emitted verbatim, sql.Identifier(s) is an identifier that is rendered
double-quoted with internal double-quotes doubled.  A statement is a list
of such parts; template text around the format slots is raw.
-/

/-- One part of a composed SQL statement. -/
inductive SqlPart where
  | lit : String → SqlPart
  | ident : String → SqlPart
deriving DecidableEq, Repr

/-- Double every double-quote character (the escaping step of
psycopg2 identifier quoting). -/
def escQuotes : List Char → List Char
  | [] => []
  | c :: r => if c = '"' then '"' :: '"' :: escQuotes r else c :: escQuotes r

/-- Safe-identifier quoting over characters: wrap in double quotes,
doubling internal double quotes. -/
def quoteIdentChars (s : List Char) : List Char :=
  '"' :: escQuotes s ++ ['"']

/-- Safe-identifier quoting at the String level (sql.Identifier rendering). -/
def quoteIdent (s : String) : String :=
  String.mk (quoteIdentChars s.data)

/-- Render a composed part to SQL text. -/
def SqlPart.render : SqlPart → String
  | .lit s => s
  | .ident s => quoteIdent s

/-- Render a composed statement to SQL text. -/
def renderStmt (parts : List SqlPart) : String :=
  String.join (parts.map SqlPart.render)

/-- One GRANT statement of _grant_privileges:
sql.SQL("GRANT ... ON ... TO ...;").format(sql.SQL(privilege),
sql.Identifier(object_type), sql.Identifier(username)).  The privilege
keyword is a raw sql.SQL part; the object and user are identifiers. -/
def grantPrivStmt (privilege objectType username : String) : List SqlPart :=
  [.lit "GRANT ", .lit privilege, .lit " ON ", .ident objectType,
   .lit " TO ", .ident username, .lit ";"]

/-- DatabaseClient._grant_privileges: for every object type and every
privilege keyword listed for it, emit one GRANT statement.  The guard
"if not user_spec.privileges: return" is subsumed: an absent or empty
mapping produces no statements. -/
def grantPrivilegeStmts (s : UserSpec) : List (List SqlPart) :=
  match s.privileges with
  | none => []
  | some ps => ps.flatMap (fun op => op.2.map (fun p => grantPrivStmt p op.1 s.username))

/-- DatabaseClient.create_user: the ordered statements issued inside one
transaction (the password travels separately as a bound parameter,
never interpolated). -/
def createUserStmts (s : UserSpec) : List (List SqlPart) :=
  [[.lit "CREATE USER ", .ident s.username, .lit " WITH PASSWORD %s;"],
   [.lit "GRANT CONNECT ON DATABASE ", .ident s.database, .lit " TO ",
    .ident s.username, .lit ";"]]
  ++ s.roles.map (fun r => [.lit "GRANT ", .ident r, .lit " TO ", .ident s.username, .lit ";"])
  ++ grantPrivilegeStmts s

/-- The privilege keyword slot of a _grant_privileges statement. -/
def privKeywordOfStmt : List SqlPart → Option String
  | .lit g :: .lit p :: _ => if g = "GRANT " then some p else none
  | _ => none

/-- All privilege keywords emitted (as raw SQL) by _grant_privileges. -/
def emittedPrivKeywords (s : UserSpec) : List String :=
  (grantPrivilegeStmts s).filterMap privKeywordOfStmt

/-- Modelled from the spec: the "known allow-list" of privilege keywords
(the spec restricts privileges to a known allow-list and names USAGE as an
example; this is the standard PostgreSQL privilege keyword set). -/
def privilegeAllowList : List String :=
  ["SELECT", "INSERT", "UPDATE", "DELETE", "TRUNCATE", "REFERENCES",
   "TRIGGER", "CREATE", "CONNECT", "TEMPORARY", "TEMP", "EXECUTE",
   "USAGE", "ALL", "ALL PRIVILEGES"]

/-- The fixed raw template fragments that create_user and
_grant_privileges ever emit besides privilege keywords. -/
def litTemplates : List String :=
  ["CREATE USER ", " WITH PASSWORD %s;", "GRANT CONNECT ON DATABASE ",
   " TO ", ";", "GRANT ", " ON "]

/-- SQL lexing of a quoted identifier: after the opening quote, a doubled
double-quote is a literal quote character and a single double-quote ends
the identifier.  Returns the identifier's content and the remaining text. -/
def readQuotedAux : List Char → Option (List Char × List Char)
  | [] => none
  | c :: r =>
    if c = '"' then
      match r with
      | [] => some ([], [])
      | c2 :: r2 =>
        if c2 = '"' then (readQuotedAux r2).map (fun p => ('"' :: p.1, p.2))
        else some ([], c2 :: r2)
    else
      (readQuotedAux r).map (fun p => (c :: p.1, p.2))

/-- SQL lexing of a quoted identifier, from the opening quote. -/
def readQuoted : List Char → Option (List Char × List Char)
  | '"' :: r => readQuotedAux r
  | _ => none

/-!
### The reconciliation cycle (PostgresUserController.reconcile_users)

One cycle is modelled as a pure function from its inputs — the fetched
ConfigMap content, the loaded previous state, the pg_roles table, the
secret store (passwords), the live role-membership map, and the dry-run
flag — to the ordered list of database events it performs (read queries
and DDL statements), the per-cycle statistics, and the state handed to
save_state (none when nothing is persisted).
-/

/-- The users.yaml content as fetched: a raw user entry of the parsed YAML
document (absent keys are None). -/
structure RawUser where
  username : Option String
  database : Option String
  roles : Option (List String)
  privileges : Option (List (String × List String))
deriving DecidableEq, Repr

/-- The users.yaml field of the ConfigMap: empty string, YAML that fails
to parse, or a document with a users list. -/
inductive YamlContent where
  | empty
  | malformed
  | doc : List RawUser → YamlContent
deriving DecidableEq, Repr

/-- Association-list lookup (Python dict access). -/
def lookupA (m : List (String × UserSpec)) (k : String) : Option UserSpec :=
  match m with
  | [] => none
  | (k2, v) :: rest => if k2 = k then some v else lookupA rest k

/-- Python dict assignment users[k] = v: replace in place if the key
exists, else append (insertion order preserved). -/
def insertA (m : List (String × UserSpec)) (k : String) (v : UserSpec) :
    List (String × UserSpec) :=
  match m with
  | [] => [(k, v)]
  | (k2, v2) :: rest =>
    if k2 = k then (k2, v) :: rest else (k2, v2) :: insertA rest k v

/-- The loop body of parse_desired_users: build the username-keyed dict;
a missing "username" key raises KeyError, which the surrounding handler
turns into an empty dict for the whole document. -/
def buildUsers : List RawUser → List (String × UserSpec) →
    Option (List (String × UserSpec))
  | [], acc => some acc
  | ru :: rest, acc =>
    match ru.username with
    | none => none
    | some u =>
      buildUsers rest (insertA acc u
        ⟨u, ru.database.getD DB_NAME, ru.roles.getD [], ru.privileges⟩)

/-- PostgresUserController.parse_desired_users: empty content yields no
users; YAML errors and missing required fields yield an empty dict. -/
def parse_desired_users : YamlContent → List (String × UserSpec)
  | .empty => []
  | .malformed => []
  | .doc rus => (buildUsers rus []).getD []

/-- The read-only queries the cycle issues. -/
inductive ReadQ where
  | fetchUsers
  | fetchRoles
  | fetchUserRoles : String → ReadQ
deriving DecidableEq, Repr

/-- The DDL statements the cycle can issue (identifier arguments only;
the statement text construction is modelled separately). -/
inductive DDL where
  | createRole : String → DDL
  | createUser : String → DDL
  | grantConnect : String → String → DDL
  | grantRole : String → String → DDL
  | grantPriv : String → String → String → DDL
  | revokeRole : String → String → DDL
  | revokeAllOnDb : String → String → DDL
  | reassignOwned : String → String → DDL
  | dropOwned : String → DDL
  | dropUser : String → DDL
deriving DecidableEq, Repr

/-- A database event: a read query or an issued DDL statement. -/
inductive Ev where
  | read : ReadQ → Ev
  | sql : DDL → Ev
deriving DecidableEq, Repr

/-- Whether an event is a read-only query. -/
def Ev.isRead : Ev → Bool
  | .read _ => true
  | .sql _ => false

/-- The role identifiers a DDL statement of the kinds named by the spec
(CREATE / GRANT / REVOKE / DROP) is issued against.  REASSIGN OWNED is not
one of those kinds; the database name of GRANT CONNECT / REVOKE ALL ON
DATABASE and the object name of a privilege GRANT are objects, not roles. -/
def DDL.roleTargets : DDL → List String
  | .createRole r => [r]
  | .createUser u => [u]
  | .grantConnect _ u => [u]
  | .grantRole r u => [r, u]
  | .grantPriv _ _ u => [u]
  | .revokeRole r u => [r, u]
  | .revokeAllOnDb _ u => [u]
  | .reassignOwned _ _ => []
  | .dropOwned u => [u]
  | .dropUser u => [u]

/-- The ReconciliationStats counters a cycle can change. -/
structure Stats where
  users_created : Nat := 0
  users_updated : Nat := 0
  users_deleted : Nat := 0
  roles_created : Nat := 0
  roles_deleted : Nat := 0
  drift_detected : Nat := 0
  errors : Nat := 0
deriving DecidableEq, Repr

/-- PostgresUserController.detect_drift, first component:
users_to_create = desired_usernames - actual_users. -/
def users_to_create (desired : List (String × UserSpec))
    (actual : List String) : List String :=
  ((desired.map Prod.fst).dedup).filter (fun u => decide (u ∉ actual))

/-- PostgresUserController.detect_drift, second component:
users_to_delete = actual_users - desired_usernames. -/
def users_to_delete (desired : List (String × UserSpec))
    (actual : List String) : List String :=
  actual.filter (fun u => decide (u ∉ desired.map Prod.fst))

/-- PostgresUserController.detect_drift, third component:
users_to_update = desired_usernames ∩ actual_users. -/
def users_to_update (desired : List (String × UserSpec))
    (actual : List String) : List String :=
  ((desired.map Prod.fst).dedup).filter (fun u => decide (u ∈ actual))

/-- PostgresUserController.detect_drift. -/
def detect_drift (desired : List (String × UserSpec)) (actual : List String) :
    List String × List String × List String :=
  (users_to_create desired actual, users_to_delete desired actual,
   users_to_update desired actual)

/-- PostgresUserController.reconcile_roles: the union of all roles
mentioned in the desired state. -/
def allDesiredRoles (desired : List (String × UserSpec)) : List String :=
  (desired.flatMap (fun p => p.2.roles)).dedup

/-- The roles reconcile_roles creates: needed roles absent from the
database's non-login roles. -/
def rolesToCreate (desired : List (String × UserSpec)) (db : List PgRole) :
    List String :=
  (allDesiredRoles desired).filter
    (fun r => decide (r ∉ fetch_existing_roles db))

/-- PostgresUserController.reconcile_roles: fetch existing roles, create
each missing one (create_role logs and skips the statement in dry-run but
returns success, so the counter increments either way).  Returns the
events and the roles_created count. -/
def reconcile_roles (desired : List (String × UserSpec)) (db : List PgRole)
    (dry_run : Bool) : List Ev × Nat :=
  let toCreate := rolesToCreate desired db
  (Ev.read .fetchRoles ::
    (if dry_run then [] else toCreate.map (fun r => Ev.sql (.createRole r))),
   toCreate.length)

/-- DatabaseClient.drop_user: the transactional statement sequence
(revoke database privileges, reassign then drop owned objects, drop the
user); in dry-run it logs and issues nothing. -/
def dropUserEvents (username : String) (dry_run : Bool) : List Ev :=
  if dry_run then []
  else
    [Ev.sql (.revokeAllOnDb DB_NAME username),
     Ev.sql (.reassignOwned username DB_USER),
     Ev.sql (.dropOwned username),
     Ev.sql (.dropUser username)]

/-- The deletion loop of reconcile_users: a user is dropped only if it is
present in the previous state; users_deleted counts each drop. -/
def handleDeletions (prev : List (String × UserSpec)) (dry_run : Bool) :
    List String → List Ev × Nat
  | [] => ([], 0)
  | u :: us =>
    let rest := handleDeletions prev dry_run us
    if (lookupA prev u).isSome then
      (dropUserEvents u dry_run ++ rest.1, rest.2 + 1)
    else rest

/-- DatabaseClient.create_user: the transactional statement sequence
(create the user, grant database connect, grant each role, grant the
extra privileges); in dry-run it logs and issues nothing. -/
def createUserEvents (spec : UserSpec) (dry_run : Bool) : List Ev :=
  if dry_run then []
  else
    [Ev.sql (.createUser spec.username),
     Ev.sql (.grantConnect spec.database spec.username)]
    ++ spec.roles.map (fun r => Ev.sql (.grantRole r spec.username))
    ++ (match spec.privileges with
        | none => []
        | some ps => ps.flatMap (fun op =>
            op.2.map (fun p => Ev.sql (.grantPriv p op.1 spec.username))))

/-- The creation loop of reconcile_users: resolve the password; a missing
secret skips the user and counts an error; otherwise create_user runs and
users_created counts it.  Returns events, users_created, errors. -/
def handleCreations (desired : List (String × UserSpec))
    (password : String → Option String) (dry_run : Bool) :
    List String → List Ev × Nat × Nat
  | [] => ([], 0, 0)
  | u :: us =>
    let rest := handleCreations desired password dry_run us
    match lookupA desired u with
    | none => rest
    | some spec =>
      match password u with
      | none => (rest.1, rest.2.1, rest.2.2 + 1)
      | some _ => (createUserEvents spec dry_run ++ rest.1, rest.2.1 + 1, rest.2.2)

/-- Python set equality of two role lists. -/
def setEqL (a b : List String) : Bool :=
  a.all (fun x => b.contains x) && b.all (fun x => a.contains x)

/-- DatabaseClient.update_user_roles: to_revoke = old - new and
to_grant = new - old; nothing at all happens when both are empty, and in
dry-run the statements are only logged. -/
def updateUserRolesEvents (username : String) (old new : List String)
    (dry_run : Bool) : List Ev :=
  let toRevoke := old.filter (fun r => !(new.contains r))
  let toGrant := new.filter (fun r => !(old.contains r))
  if toRevoke.isEmpty && toGrant.isEmpty then []
  else if dry_run then []
  else
    toRevoke.map (fun r => Ev.sql (.revokeRole r username))
    ++ toGrant.map (fun r => Ev.sql (.grantRole r username))

/-- The update loop of reconcile_users: only a user whose previous-state
roles differ (as sets) from the desired roles has its live membership
queried; only when the live membership also differs from the desired
roles is update_user_roles called and users_updated counted. -/
def handleUpdates (desired prev : List (String × UserSpec))
    (memberships : String → List String) (dry_run : Bool) :
    List String → List Ev × Nat
  | [] => ([], 0)
  | u :: us =>
    let rest := handleUpdates desired prev memberships dry_run us
    match lookupA desired u, lookupA prev u with
    | some spec, some prevSpec =>
      if setEqL prevSpec.roles spec.roles then rest
      else
        let actualRoles := memberships u
        if setEqL actualRoles spec.roles then
          (Ev.read (.fetchUserRoles u) :: rest.1, rest.2)
        else
          (Ev.read (.fetchUserRoles u)
             :: updateUserRolesEvents u actualRoles spec.roles dry_run
             ++ rest.1,
           rest.2 + 1)
    | _, _ => rest

/-- PostgresUserController.reconcile_users, one cycle: fetch and parse the
ConfigMap (a missing ConfigMap aborts with an error), load the previous
state, fetch live users, reconcile roles, diff, delete, create, update,
and persist the new state unless dry-run.  Returns the ordered database
events, the cycle statistics, and the state passed to save_state. -/
def reconcile_users (cfg : Option YamlContent)
    (prev : List (String × UserSpec)) (db : List PgRole)
    (password : String → Option String)
    (memberships : String → List String) (dry_run : Bool) :
    List Ev × Stats × Option (List (String × UserSpec)) :=
  match cfg with
  | none => ([], { errors := 1 }, none)
  | some content =>
    let desired := parse_desired_users content
    let actual := fetch_existing_users db
    let roles := reconcile_roles desired db dry_run
    let toCreate := users_to_create desired actual
    let toDelete := users_to_delete desired actual
    let toUpdate := users_to_update desired actual
    let del := handleDeletions prev dry_run toDelete
    let cre := handleCreations desired password dry_run toCreate
    let upd := handleUpdates desired prev memberships dry_run toUpdate
    (Ev.read .fetchUsers :: roles.1 ++ del.1 ++ cre.1 ++ upd.1
       ++ [Ev.read .fetchRoles],
     { users_created := cre.2.1, users_updated := upd.2,
       users_deleted := del.2, roles_created := roles.2,
       drift_detected := toCreate.length + toDelete.length,
       errors := cre.2.2 },
     if dry_run then none else some desired)

/-!
### State store (StateManager.save_state / load_state)

save_state serializes the username-to-record dict with json.dump and
writes it straight into the state file opened in truncating write mode;
load_state reads the file back with json.load and rebuilds the records.
The JSON text codec is modelled below for the layout save_state emits
(dict fields in dataclass declaration order; the inert pretty-printing
whitespace that indent=2 adds and json.load ignores is elided; string
escaping is the identity on the well-formed identifier strings the claims
quantify over).  The file system is modelled as the state file's content
plus an optional IO-failure point: a failure after k written characters
leaves the truncated file holding the first k characters of the dump.
-/

/-- The left-brace character of the JSON text. -/
def lbraceC : Char := Char.ofNat 123

/-- The right-brace character of the JSON text. -/
def rbraceC : Char := Char.ofNat 125

/-- JSON item separator. -/
def commaSp : List Char := [',', ' ']

/-- JSON key separator. -/
def colonSp : List Char := [':', ' ']

/-- Join rendered pieces with a separator. -/
def joinSep (sep : List Char) : List (List Char) → List Char
  | [] => []
  | [x] => x
  | x :: y :: ys => x ++ sep ++ joinSep sep (y :: ys)

/-- Render a JSON string (escaping is the identity on the quote-free
strings considered here). -/
def rStr (s : String) : List Char :=
  '"' :: s.data ++ ['"']

/-- Render a JSON array of strings. -/
def rStrList (l : List String) : List Char :=
  '[' :: joinSep commaSp (l.map rStr) ++ [']']

/-- Render one key-value pair of the privileges object. -/
def privItemRender (op : String × List String) : List Char :=
  rStr op.1 ++ colonSp ++ rStrList op.2

/-- Render the privileges field: null for None, else an object mapping
object identifiers to privilege keyword arrays. -/
def rPriv : Option (List (String × List String)) → List Char
  | none => ['n', 'u', 'l', 'l']
  | some ps =>
    lbraceC :: joinSep commaSp (ps.map privItemRender) ++ [rbraceC]

/-- Render asdict(UserSpec): the four fields in declaration order. -/
def rRec (v : UserSpec) : List Char :=
  lbraceC ::
    (rStr "username" ++ colonSp ++ rStr v.username
     ++ commaSp ++ rStr "database" ++ colonSp ++ rStr v.database
     ++ commaSp ++ rStr "roles" ++ colonSp ++ rStrList v.roles
     ++ commaSp ++ rStr "privileges" ++ colonSp ++ rPriv v.privileges)
  ++ [rbraceC]

/-- Render one username-record entry of the state object. -/
def entryRender (kv : String × UserSpec) : List Char :=
  rStr kv.1 ++ colonSp ++ rRec kv.2

/-- Render the whole state dict (the text json.dump produces). -/
def renderState (m : List (String × UserSpec)) : List Char :=
  lbraceC :: joinSep commaSp (m.map entryRender) ++ [rbraceC]

/-- Parse the body of a JSON string up to its closing quote. -/
def pStrAux : List Char → Option (List Char × List Char)
  | [] => none
  | c :: r =>
    if c = '"' then some ([], r)
    else (pStrAux r).map (fun p => (c :: p.1, p.2))

/-- Parse a JSON string. -/
def pStr : List Char → Option (String × List Char)
  | [] => none
  | c :: r =>
    if c = '"' then (pStrAux r).map (fun p => (String.mk p.1, p.2))
    else none

/-- Consume an expected literal character sequence. -/
def pLit : List Char → List Char → Option (List Char)
  | [], cs => some cs
  | _ :: _, [] => none
  | p :: ps, c :: cs => if c = p then pLit ps cs else none

/-- Parse the comma-separated items of a non-empty string array, up to
and including the closing bracket. -/
def pStrItems : Nat → List Char → Option (List String × List Char)
  | 0, _ => none
  | n + 1, cs =>
    (pStr cs).bind (fun sr =>
      match sr.2 with
      | ']' :: r2 => some ([sr.1], r2)
      | ',' :: ' ' :: r2 =>
        (pStrItems n r2).map (fun lr => (sr.1 :: lr.1, lr.2))
      | _ => none)

/-- Parse a JSON array of strings. -/
def pStrList (n : Nat) (cs : List Char) : Option (List String × List Char) :=
  match cs with
  | '[' :: ']' :: r2 => some ([], r2)
  | '[' :: r => pStrItems n r
  | _ => none

/-- Parse the entries of a non-empty privileges object, up to and
including the closing brace. -/
def pPrivItems : Nat → List Char → Option (List (String × List String) × List Char)
  | 0, _ => none
  | n + 1, cs =>
    (pStr cs).bind (fun kr =>
      (pLit colonSp kr.2).bind (fun r1 =>
        (pStrList n r1).bind (fun vr =>
          match vr.2 with
          | [] => none
          | c :: r3 =>
            if c = rbraceC then some ([(kr.1, vr.1)], r3)
            else if c = ',' then
              match r3 with
              | ' ' :: r4 =>
                (pPrivItems n r4).map (fun lr => ((kr.1, vr.1) :: lr.1, lr.2))
              | _ => none
            else none)))

/-- Parse the privileges field: null or an object. -/
def pPriv (n : Nat) (cs : List Char) :
    Option (Option (List (String × List String)) × List Char) :=
  match cs with
  | 'n' :: 'u' :: 'l' :: 'l' :: r => some (none, r)
  | c :: r =>
    if c = lbraceC then
      match r with
      | [] => none
      | c2 :: r2 =>
        if c2 = rbraceC then some (some [], r2)
        else (pPrivItems n (c2 :: r2)).map (fun lr => (some lr.1, lr.2))
    else none
  | [] => none

/-- The serialized key of the username field. -/
def kUserKey : List Char := rStr "username" ++ colonSp

/-- The serialized key of the database field. -/
def kDbKey : List Char := commaSp ++ rStr "database" ++ colonSp

/-- The serialized key of the roles field. -/
def kRolesKey : List Char := commaSp ++ rStr "roles" ++ colonSp

/-- The serialized key of the privileges field. -/
def kPrivKey : List Char := commaSp ++ rStr "privileges" ++ colonSp

/-- Parse one serialized UserSpec record (UserSpec(**spec) applied to the
parsed object). -/
def pRec (n : Nat) (cs : List Char) : Option (UserSpec × List Char) :=
  match cs with
  | [] => none
  | c :: r =>
    if c = lbraceC then
      (pLit kUserKey r).bind (fun r1 =>
        (pStr r1).bind (fun ur =>
          (pLit kDbKey ur.2).bind (fun r2 =>
            (pStr r2).bind (fun dr =>
              (pLit kRolesKey dr.2).bind (fun r3 =>
                (pStrList n r3).bind (fun rr =>
                  (pLit kPrivKey rr.2).bind (fun r4 =>
                    (pPriv n r4).bind (fun pr =>
                      match pr.2 with
                      | [] => none
                      | c2 :: r5 =>
                        if c2 = rbraceC then
                          some (⟨ur.1, dr.1, rr.1, pr.1⟩, r5)
                        else none))))))))
    else none

/-- Parse the entries of a non-empty state object, up to and including
the closing brace. -/
def pEntries (inner : Nat) : Nat → List Char →
    Option (List (String × UserSpec) × List Char)
  | 0, _ => none
  | n + 1, cs =>
    (pStr cs).bind (fun kr =>
      (pLit colonSp kr.2).bind (fun r1 =>
        (pRec inner r1).bind (fun vr =>
          match vr.2 with
          | [] => none
          | c :: r2 =>
            if c = rbraceC then some ([(kr.1, vr.1)], r2)
            else if c = ',' then
              match r2 with
              | ' ' :: r3 =>
                (pEntries inner n r3).map (fun lr => ((kr.1, vr.1) :: lr.1, lr.2))
              | _ => none
            else none)))

/-- Parse the whole state object. -/
def pState (cs : List Char) : Option (List (String × UserSpec) × List Char) :=
  match cs with
  | [] => none
  | c :: r =>
    if c = lbraceC then
      match r with
      | [] => none
      | c2 :: r2 =>
        if c2 = rbraceC then some ([], r2)
        else pEntries (cs.length + 1) (cs.length + 1) (c2 :: r2)
    else none

/-- json.load followed by the UserSpec reconstruction of load_state; any
parse failure (including trailing garbage) is a JSONDecodeError, which
load_state turns into the empty dict. -/
def loadFromText (cs : List Char) : List (String × UserSpec) :=
  match pState cs with
  | some (m, []) => m
  | _ => []

/-- The state file and the IO behaviour of the next write: none means the
write succeeds, some k means an IOError strikes after k characters of the
dump have been written (k = 0 is a failure right after the truncating
open). -/
structure Fs where
  content : Option (List Char)
  failAt : Option Nat
deriving DecidableEq, Repr

/-- StateManager.save_state: open the state file in truncating write mode
and json.dump into it; an IOError is caught and logged, leaving whatever
prefix of the dump was already written. -/
def save_state (users : List (String × UserSpec)) (fs : Fs) : Fs :=
  match fs.failAt with
  | none => { fs with content := some (renderState users) }
  | some k => { fs with content := some ((renderState users).take k) }

/-- StateManager.load_state: an absent file or a file whose JSON fails to
decode yields the empty dict. -/
def load_state (fs : Fs) : List (String × UserSpec) :=
  match fs.content with
  | none => []
  | some cs => loadFromText cs

/-- Identifier character per the spec's username grammar. -/
def isIdentChar (c : Char) : Bool :=
  c.isAlpha || c.isDigit || c = '_'

/-- A well-formed identifier per the spec. -/
def wfIdent (s : String) : Bool :=
  match s.data with
  | [] => false
  | c :: r => (c.isAlpha || c = '_') && r.all isIdentChar

/-- A well-formed User Record: all of its strings are well-formed
identifiers or keywords in the identifier alphabet. -/
def wfRecord (v : UserSpec) : Bool :=
  wfIdent v.username && wfIdent v.database && v.roles.all wfIdent &&
    (match v.privileges with
     | none => true
     | some ps => ps.all (fun op => wfIdent op.1 && op.2.all wfIdent))

/-- A well-formed persisted spec: a genuine mapping (distinct usernames)
of well-formed User Records. -/
def WfState (m : List (String × UserSpec)) : Prop :=
  (m.map Prod.fst).Nodup ∧ ∀ kv ∈ m, wfIdent kv.1 ∧ wfRecord kv.2

/-- All strings of a record are free of double quotes (so JSON string
escaping is the identity on them). -/
def noQuoteRec (v : UserSpec) : Prop :=
  '"' ∉ v.username.data ∧ '"' ∉ v.database.data ∧
    (∀ r ∈ v.roles, '"' ∉ r.data) ∧
    (∀ op ∈ v.privileges.getD [], '"' ∉ op.1.data ∧ ∀ w ∈ op.2, '"' ∉ w.data)

/-- Parser fuel bound sufficient for one record's inner lists. -/
def recBound (v : UserSpec) (n : Nat) : Prop :=
  v.roles.length ≤ n ∧
    (v.privileges.getD []).length
      + ((v.privileges.getD []).map (fun op => op.2.length)).sum ≤ n

/-!
## Theorems

First the helper lemmas, then one theorem per claim (with witnesses and
counterexamples where applicable).
-/

theorem readQuotedAux_quote_nil : readQuotedAux ['"'] = some ([], []) := rfl

theorem readQuotedAux_quote_quote (r : List Char) :
    readQuotedAux ('"' :: '"' :: r) =
      (readQuotedAux r).map (fun p => ('"' :: p.1, p.2)) := rfl

theorem readQuotedAux_quote_ne (c : Char) (r : List Char) (hc : c ≠ '"') :
    readQuotedAux ('"' :: c :: r) = some ([], c :: r) := by
  have h : readQuotedAux ('"' :: c :: r) =
      if c = '"' then (readQuotedAux r).map (fun p => ('"' :: p.1, p.2))
      else some ([], c :: r) := rfl
  rw [h, if_neg hc]

theorem readQuotedAux_cons_ne (c : Char) (r : List Char) (hc : c ≠ '"') :
    readQuotedAux (c :: r) =
      (readQuotedAux r).map (fun p => (c :: p.1, p.2)) := by
  rw [readQuotedAux.eq_def]
  simp only [hc, if_false, if_neg]

theorem readQuotedAux_escQuotes (s : List Char) (rest : List Char)
    (hrest : rest.head? ≠ some '"') :
    readQuotedAux (escQuotes s ++ '"' :: rest) = some (s, rest) := by
  induction s with
  | nil =>
    cases rest with
    | nil => simp [escQuotes, readQuotedAux_quote_nil]
    | cons c r =>
      have hc : ¬ c = '"' := by
        intro h
        exact hrest (by simp [h])
      simp [escQuotes, readQuotedAux_quote_ne c r hc]
  | cons c s ih =>
    by_cases hc : c = '"'
    · subst hc
      simp [escQuotes, readQuotedAux_quote_quote, ih]
    · simp [escQuotes, hc, readQuotedAux_cons_ne _ _ hc, ih]

theorem readQuoted_quoteIdentChars (s rest : List Char)
    (hrest : rest.head? ≠ some '"') :
    readQuoted (quoteIdentChars s ++ rest) = some (s, rest) := by
  simpa [quoteIdentChars, readQuoted] using readQuotedAux_escQuotes s rest hrest

theorem mem_fetch_existing_users {db : List PgRole} {r : String} :
    r ∈ fetch_existing_users db ↔
      r ∈ db.map PgRole.rolname ∧ r ∉ SYSTEM_ROLES := by
  simp [fetch_existing_users, List.mem_filter]

theorem mem_emittedPrivKeywords {s : UserSpec} {p : String} :
    p ∈ emittedPrivKeywords s ↔
      ∃ op, op ∈ s.privileges.getD [] ∧ p ∈ op.2 := by
  cases h : s.privileges with
  | none => simp [emittedPrivKeywords, grantPrivilegeStmts, h]
  | some ps =>
    simp only [emittedPrivKeywords, grantPrivilegeStmts, h, Option.getD_some,
      List.mem_filterMap, List.mem_flatMap, List.mem_map]
    constructor
    · rintro ⟨st, ⟨op, hop, q, hq, rfl⟩, hkw⟩
      simp [privKeywordOfStmt, grantPrivStmt] at hkw
      exact ⟨op, hop, hkw ▸ hq⟩
    · rintro ⟨op, hop, hp⟩
      exact ⟨grantPrivStmt p op.1 s.username, ⟨op, hop, p, hp, rfl⟩,
        by simp [privKeywordOfStmt, grantPrivStmt]⟩

/-- C4 counterexample: a role without login capability is returned by
fetch_existing_users, while the spec's list_users description excludes
it. -/
theorem claim_C4_counterexample :
    fetch_existing_users [⟨"ro", false⟩] = ["ro"] ∧
      list_users_spec_version [⟨"ro", false⟩] = [] := by decide

/-- C4 (amended): fetch_existing_users returns exactly the names of all
database roles outside the system-role denylist, with no condition on
login capability, so group roles appear in its result too. -/
theorem claim_C4_amended (db : List PgRole) (r : String) :
    r ∈ fetch_existing_users db ↔
      r ∈ db.map PgRole.rolname ∧ r ∉ SYSTEM_ROLES := by
  simp [fetch_existing_users, List.mem_filter]

theorem mem_grantPrivilegeStmts {s : UserSpec} {st : List SqlPart} :
    st ∈ grantPrivilegeStmts s ↔
      ∃ op, op ∈ s.privileges.getD [] ∧
        ∃ p ∈ op.2, st = grantPrivStmt p op.1 s.username := by
  cases h : s.privileges with
  | none => simp [grantPrivilegeStmts, h]
  | some ps =>
    simp only [grantPrivilegeStmts, h, Option.getD_some, List.mem_flatMap,
      List.mem_map]
    constructor
    · rintro ⟨op, hop, q, hq, rfl⟩
      exact ⟨op, hop, q, hq, rfl⟩
    · rintro ⟨op, hop, q, hq, rfl⟩
      exact ⟨op, hop, q, hq, rfl⟩

/-- C1 counterexample: _grant_privileges interpolates the privilege
keyword as raw SQL with no allow-list check, so a keyword outside any
allow-list — here one smuggling a second statement — is emitted verbatim
and unquoted into the GRANT statement. -/
theorem claim_C1_counterexample :
    "USAGE; DROP TABLE t; --" ∈ emittedPrivKeywords
        ⟨"alice", "app", [], some [("public", ["USAGE; DROP TABLE t; --"])]⟩ ∧
      "USAGE; DROP TABLE t; --" ∉ privilegeAllowList ∧
      (grantPrivilegeStmts
          ⟨"alice", "app", [], some [("public", ["USAGE; DROP TABLE t; --"])]⟩).map
          renderStmt =
        ["GRANT USAGE; DROP TABLE t; -- ON \"public\" TO \"alice\";"] := by
  decide

/-- C1 (amended): every role, user, database and object identifier of
create_user is routed through the safe-identifier quoter — the raw
(unquoted) fragments of its statements are exactly the fixed templates
plus the privilege keywords — and the quoter is safe (lexing a quoted
identifier recovers exactly the input); but the privilege keywords are
passed through verbatim from the input spec with no allow-list
restriction. -/
theorem claim_C1_amended :
    (∀ (s : UserSpec) (p : String),
        p ∈ emittedPrivKeywords s ↔
          ∃ op, op ∈ s.privileges.getD [] ∧ p ∈ op.2) ∧
    (∀ (s : UserSpec) (t : String),
        SqlPart.lit t ∈ (createUserStmts s).flatten →
          t ∈ litTemplates ∨ t ∈ emittedPrivKeywords s) ∧
    (∀ (s rest : List Char), rest.head? ≠ some '"' →
        readQuoted (quoteIdentChars s ++ rest) = some (s, rest)) := by
  refine ⟨fun s p => mem_emittedPrivKeywords, ?_, readQuoted_quoteIdentChars⟩
  intro s t ht
  rw [List.mem_flatten] at ht
  obtain ⟨st, hst, hpart⟩ := ht
  simp only [createUserStmts, List.cons_append, List.nil_append,
    List.mem_cons, List.mem_append, List.mem_map] at hst
  rcases hst with h1 | h2 | hrole | hpriv
  · subst h1
    left
    simp only [List.mem_cons, List.not_mem_nil, or_false] at hpart
    rcases hpart with h | h | h <;> simp_all [litTemplates]
  · subst h2
    left
    simp only [List.mem_cons, List.not_mem_nil, or_false] at hpart
    rcases hpart with h | h | h | h | h <;> simp_all [litTemplates]
  · obtain ⟨r, _, rfl⟩ := hrole
    left
    simp only [List.mem_cons, List.not_mem_nil, or_false] at hpart
    rcases hpart with h | h | h | h | h <;> simp_all [litTemplates]
  · rw [mem_grantPrivilegeStmts] at hpriv
    obtain ⟨op, hop, q, hq, rfl⟩ := hpriv
    simp only [grantPrivStmt, List.mem_cons, List.not_mem_nil, or_false] at hpart
    rcases hpart with h | h | h | h | h | h | h
    · left; simp_all [litTemplates]
    · right
      rw [SqlPart.lit.injEq] at h
      subst h
      exact mem_emittedPrivKeywords.mpr ⟨op, hop, hq⟩
    · left; simp_all [litTemplates]
    · exact absurd h (by simp)
    · left; simp_all [litTemplates]
    · exact absurd h (by simp)
    · left; simp_all [litTemplates]

/-- Witness for C1 (amended) at concrete inputs. -/
theorem claim_C1_witness :
    "USAGE" ∈ emittedPrivKeywords
        ⟨"bob", "app", [], some [("public", ["USAGE"])]⟩ ∧
      readQuoted (quoteIdentChars ['a', '"', 'b'] ++ [' ']) =
        some (['a', '"', 'b'], [' ']) :=
  ⟨(claim_C1_amended.1 _ "USAGE").mpr ⟨("public", ["USAGE"]), by decide, by decide⟩,
   claim_C1_amended.2.2 ['a', '"', 'b'] [' '] (by decide)⟩

/-!
### Lemmas about the reconciliation model
-/

theorem lookupA_mem {m : List (String × UserSpec)} {k : String} {v : UserSpec}
    (h : lookupA m k = some v) : (k, v) ∈ m := by
  induction m with
  | nil => simp [lookupA] at h
  | cons kv rest ih =>
    obtain ⟨k2, v2⟩ := kv
    by_cases hk : k2 = k
    · subst hk
      simp [lookupA] at h
      simp [h]
    · simp only [lookupA, if_neg hk] at h
      exact List.mem_cons_of_mem _ (ih h)

theorem mem_insertA {m : List (String × UserSpec)} {k : String}
    {v : UserSpec} {x : String × UserSpec} (h : x ∈ insertA m k v) :
    x ∈ m ∨ x = (k, v) := by
  induction m with
  | nil => simpa [insertA] using h
  | cons kv rest ih =>
    obtain ⟨k2, v2⟩ := kv
    by_cases hk : k2 = k
    · simp only [insertA, if_pos hk] at h
      rcases List.mem_cons.mp h with h | h
      · right; simp [h, hk]
      · left; exact List.mem_cons_of_mem _ h
    · simp only [insertA, if_neg hk] at h
      rcases List.mem_cons.mp h with h | h
      · left; simp [h]
      · rcases ih h with h | h
        · left; exact List.mem_cons_of_mem _ h
        · right; exact h

theorem buildUsers_username_eq_key {rus : List RawUser}
    {acc m : List (String × UserSpec)}
    (hacc : ∀ x ∈ acc, x.2.username = x.1)
    (h : buildUsers rus acc = some m) :
    ∀ x ∈ m, x.2.username = x.1 := by
  induction rus generalizing acc with
  | nil =>
    simp only [buildUsers, Option.some.injEq] at h
    exact h ▸ hacc
  | cons ru rest ih =>
    simp only [buildUsers] at h
    cases hu : ru.username with
    | none => rw [hu] at h; exact absurd h (by simp)
    | some u =>
      rw [hu] at h
      refine ih (fun x hx => ?_) h
      rcases mem_insertA hx with hx | hx
      · exact hacc x hx
      · simp [hx]

theorem parse_username_eq_key {content : YamlContent}
    {x : String × UserSpec} (h : x ∈ parse_desired_users content) :
    x.2.username = x.1 := by
  cases content with
  | empty => simp [parse_desired_users] at h
  | malformed => simp [parse_desired_users] at h
  | doc rus =>
    simp only [parse_desired_users] at h
    cases hb : buildUsers rus [] with
    | none => rw [hb] at h; simp at h
    | some m =>
      rw [hb] at h
      exact buildUsers_username_eq_key (by simp) hb x h

theorem buildUsers_missing_username {rus : List RawUser}
    (h : ∃ ru ∈ rus, ru.username = none) (acc : List (String × UserSpec)) :
    buildUsers rus acc = none := by
  induction rus generalizing acc with
  | nil => simp at h
  | cons ru rest ih =>
    obtain ⟨ru2, hmem, hnone⟩ := h
    rcases List.mem_cons.mp hmem with h | h
    · subst h
      simp [buildUsers, hnone]
    · simp only [buildUsers]
      cases hu : ru.username with
      | none => rfl
      | some u => exact ih ⟨ru2, h, hnone⟩ _

theorem mem_users_to_create {desired : List (String × UserSpec)}
    {actual : List String} {u : String} :
    u ∈ users_to_create desired actual ↔
      u ∈ desired.map Prod.fst ∧ u ∉ actual := by
  simp [users_to_create, List.mem_filter]

theorem mem_users_to_delete {desired : List (String × UserSpec)}
    {actual : List String} {u : String} :
    u ∈ users_to_delete desired actual ↔
      u ∈ actual ∧ u ∉ desired.map Prod.fst := by
  simp [users_to_delete, List.mem_filter]

theorem mem_users_to_update {desired : List (String × UserSpec)}
    {actual : List String} {u : String} :
    u ∈ users_to_update desired actual ↔
      u ∈ desired.map Prod.fst ∧ u ∈ actual := by
  simp [users_to_update, List.mem_filter]

theorem mem_rolesToCreate {desired : List (String × UserSpec)}
    {db : List PgRole} {r : String} (h : r ∈ rolesToCreate desired db) :
    ∃ kv ∈ desired, r ∈ kv.2.roles := by
  simp only [rolesToCreate, allDesiredRoles, List.mem_filter, List.mem_dedup,
    List.mem_flatMap] at h
  obtain ⟨⟨kv, hkv, hr⟩, _⟩ := h
  exact ⟨kv, hkv, hr⟩

theorem mem_handleDeletions {prev : List (String × UserSpec)} {dry : Bool}
    {l : List String} {e : Ev} :
    e ∈ (handleDeletions prev dry l).1 ↔
      ∃ u ∈ l, (lookupA prev u).isSome ∧ e ∈ dropUserEvents u dry := by
  induction l with
  | nil => simp [handleDeletions]
  | cons u us ih =>
    simp only [handleDeletions]
    by_cases hu : (lookupA prev u).isSome
    · simp only [if_pos hu, List.mem_append, ih, List.mem_cons]
      constructor
      · rintro (h | ⟨u2, h2, h3, h4⟩)
        · exact ⟨u, Or.inl rfl, hu, h⟩
        · exact ⟨u2, Or.inr h2, h3, h4⟩
      · rintro ⟨u2, h2 | h2, h3, h4⟩
        · exact Or.inl (h2 ▸ h4)
        · exact Or.inr ⟨u2, h2, h3, h4⟩
    · simp only [if_neg hu, ih, List.mem_cons]
      constructor
      · rintro ⟨u2, h2, h3, h4⟩
        exact ⟨u2, Or.inr h2, h3, h4⟩
      · rintro ⟨u2, h2 | h2, h3, h4⟩
        · exact absurd (h2 ▸ h3) hu
        · exact ⟨u2, h2, h3, h4⟩

theorem count_handleDeletions (prev : List (String × UserSpec))
    (dry : Bool) (l : List String) :
    (handleDeletions prev dry l).2 = (handleDeletions prev false l).2 := by
  induction l with
  | nil => rfl
  | cons u us ih =>
    simp only [handleDeletions]
    by_cases hu : (lookupA prev u).isSome <;> simp [hu, ih]

theorem mem_handleCreations {desired : List (String × UserSpec)}
    {pw : String → Option String} {dry : Bool} {l : List String} {e : Ev} :
    e ∈ (handleCreations desired pw dry l).1 ↔
      ∃ u ∈ l, ∃ spec, lookupA desired u = some spec ∧ (pw u).isSome ∧
        e ∈ createUserEvents spec dry := by
  induction l with
  | nil => simp [handleCreations]
  | cons u us ih =>
    simp only [handleCreations]
    cases hs : lookupA desired u with
    | none =>
      simp only [ih, List.mem_cons]
      constructor
      · rintro ⟨u2, h2, spec, h3, h4, h5⟩
        exact ⟨u2, Or.inr h2, spec, h3, h4, h5⟩
      · rintro ⟨u2, h2 | h2, spec, h3, h4, h5⟩
        · subst h2; rw [hs] at h3; exact absurd h3 (by simp)
        · exact ⟨u2, h2, spec, h3, h4, h5⟩
    | some spec =>
      cases hp : pw u with
      | none =>
        simp only [ih, List.mem_cons]
        constructor
        · rintro ⟨u2, h2, spec2, h3, h4, h5⟩
          exact ⟨u2, Or.inr h2, spec2, h3, h4, h5⟩
        · rintro ⟨u2, h2 | h2, spec2, h3, h4, h5⟩
          · subst h2; rw [hp] at h4; exact absurd h4 (by simp)
          · exact ⟨u2, h2, spec2, h3, h4, h5⟩
      | some pword =>
        simp only [List.mem_append, ih, List.mem_cons]
        constructor
        · rintro (h | ⟨u2, h2, spec2, h3, h4, h5⟩)
          · exact ⟨u, Or.inl rfl, spec, hs, by simp [hp], h⟩
          · exact ⟨u2, Or.inr h2, spec2, h3, h4, h5⟩
        · rintro ⟨u2, h2 | h2, spec2, h3, h4, h5⟩
          · subst h2
            rw [hs] at h3
            obtain rfl : spec = spec2 := by simpa using h3
            exact Or.inl h5
          · exact Or.inr ⟨u2, h2, spec2, h3, h4, h5⟩

theorem count_handleCreations (desired : List (String × UserSpec))
    (pw : String → Option String) (dry : Bool) (l : List String) :
    (handleCreations desired pw dry l).2 =
      (handleCreations desired pw false l).2 := by
  induction l with
  | nil => rfl
  | cons u us ih =>
    simp only [handleCreations]
    cases lookupA desired u with
    | none => exact ih
    | some spec =>
      cases pw u with
      | none => simp [ih]
      | some pword => simp [ih]

theorem mem_handleUpdates {desired prev : List (String × UserSpec)}
    {mem : String → List String} {dry : Bool} {l : List String} {e : Ev} :
    e ∈ (handleUpdates desired prev mem dry l).1 ↔
      ∃ u ∈ l, ∃ spec prevSpec, lookupA desired u = some spec ∧
        lookupA prev u = some prevSpec ∧
        setEqL prevSpec.roles spec.roles = false ∧
        (e = Ev.read (.fetchUserRoles u) ∨
          (setEqL (mem u) spec.roles = false ∧
            e ∈ updateUserRolesEvents u (mem u) spec.roles dry)) := by
  induction l with
  | nil => simp [handleUpdates]
  | cons u us ih =>
    simp only [handleUpdates]
    cases hs : lookupA desired u with
    | none =>
      simp only [ih, List.mem_cons]
      constructor
      · rintro ⟨u2, h2, spec, pspec, h3, h4, h5, h6⟩
        exact ⟨u2, Or.inr h2, spec, pspec, h3, h4, h5, h6⟩
      · rintro ⟨u2, h2 | h2, spec, pspec, h3, h4, h5, h6⟩
        · subst h2; rw [hs] at h3; exact absurd h3 (by simp)
        · exact ⟨u2, h2, spec, pspec, h3, h4, h5, h6⟩
    | some spec =>
      cases hpv : lookupA prev u with
      | none =>
        simp only [ih, List.mem_cons]
        constructor
        · rintro ⟨u2, h2, spec2, pspec, h3, h4, h5, h6⟩
          exact ⟨u2, Or.inr h2, spec2, pspec, h3, h4, h5, h6⟩
        · rintro ⟨u2, h2 | h2, spec2, pspec, h3, h4, h5, h6⟩
          · subst h2; rw [hpv] at h4; exact absurd h4 (by simp)
          · exact ⟨u2, h2, spec2, pspec, h3, h4, h5, h6⟩
      | some pspec =>
        by_cases hroles : setEqL pspec.roles spec.roles
        · simp only [if_pos hroles, ih, List.mem_cons]
          constructor
          · rintro ⟨u2, h2, spec2, pspec2, h3, h4, h5, h6⟩
            exact ⟨u2, Or.inr h2, spec2, pspec2, h3, h4, h5, h6⟩
          · rintro ⟨u2, h2 | h2, spec2, pspec2, h3, h4, h5, h6⟩
            · subst h2
              rw [hs] at h3
              obtain rfl : spec = spec2 := by simpa using h3
              rw [hpv] at h4
              obtain rfl : pspec = pspec2 := by simpa using h4
              rw [hroles] at h5
              exact absurd h5 (by simp)
            · exact ⟨u2, h2, spec2, pspec2, h3, h4, h5, h6⟩
        · simp only [if_neg hroles]
          have hroles' : setEqL pspec.roles spec.roles = false := by
            simpa using hroles
          by_cases hlive : setEqL (mem u) spec.roles
          · simp only [if_pos hlive, List.mem_cons, ih]
            constructor
            · rintro (h | ⟨u2, h2, spec2, pspec2, h3, h4, h5, h6⟩)
              · exact ⟨u, Or.inl rfl, spec, pspec, hs, hpv, hroles', Or.inl h⟩
              · exact ⟨u2, Or.inr h2, spec2, pspec2, h3, h4, h5, h6⟩
            · rintro ⟨u2, h2 | h2, spec2, pspec2, h3, h4, h5, h6⟩
              · subst h2
                rw [hs] at h3
                obtain rfl : spec = spec2 := by simpa using h3
                rcases h6 with h6 | ⟨h6a, _⟩
                · exact Or.inl h6
                · rw [hlive] at h6a; exact absurd h6a (by simp)
              · exact Or.inr ⟨u2, h2, spec2, pspec2, h3, h4, h5, h6⟩
          · have hlive' : setEqL (mem u) spec.roles = false := by
              simpa using hlive
            simp only [if_neg hlive]
            constructor
            · intro h
              rcases List.mem_cons.mp h with h | h
              · exact ⟨u, List.mem_cons_self u us, spec, pspec, hs, hpv,
                  hroles', Or.inl h⟩
              · rcases List.mem_append.mp h with h | h
                · exact ⟨u, List.mem_cons_self u us, spec, pspec, hs, hpv,
                    hroles', Or.inr ⟨hlive', h⟩⟩
                · obtain ⟨u2, h2, spec2, pspec2, h3, h4, h5, h6⟩ := ih.mp h
                  exact ⟨u2, List.mem_cons_of_mem _ h2, spec2, pspec2,
                    h3, h4, h5, h6⟩
            · rintro ⟨u2, h2, spec2, pspec2, h3, h4, h5, h6⟩
              rcases List.mem_cons.mp h2 with h2 | h2
              · subst h2
                rw [hs] at h3
                obtain rfl : spec = spec2 := by simpa using h3
                rcases h6 with h6 | ⟨_, h6b⟩
                · subst h6
                  exact List.mem_cons_self _ _
                · exact List.mem_cons_of_mem _
                    (List.mem_append.mpr (Or.inl h6b))
              · exact List.mem_cons_of_mem _ (List.mem_append.mpr
                  (Or.inr (ih.mpr ⟨u2, h2, spec2, pspec2, h3, h4, h5, h6⟩)))

theorem count_handleUpdates (desired prev : List (String × UserSpec))
    (mem : String → List String) (dry : Bool) (l : List String) :
    (handleUpdates desired prev mem dry l).2 =
      (handleUpdates desired prev mem false l).2 := by
  induction l with
  | nil => rfl
  | cons u us ih =>
    simp only [handleUpdates]
    cases lookupA desired u with
    | none => exact ih
    | some spec =>
      cases lookupA prev u with
      | none => exact ih
      | some pspec =>
        by_cases hroles : setEqL pspec.roles spec.roles
        · simp [hroles, ih]
        · by_cases hlive : setEqL (mem u) spec.roles <;>
            simp [hroles, hlive, ih]

theorem mem_reconcile_roles_evs {desired : List (String × UserSpec)}
    {db : List PgRole} {dry : Bool} {e : Ev} :
    e ∈ (reconcile_roles desired db dry).1 ↔
      e = Ev.read .fetchRoles ∨
        (dry = false ∧ ∃ r ∈ rolesToCreate desired db,
          e = Ev.sql (.createRole r)) := by
  cases dry <;> simp [reconcile_roles, List.mem_map, eq_comm]

theorem mem_reconcile_users_evs {content : YamlContent}
    {prev : List (String × UserSpec)} {db : List PgRole}
    {pw : String → Option String} {mem : String → List String}
    {dry : Bool} {e : Ev} :
    e ∈ (reconcile_users (some content) prev db pw mem dry).1 ↔
      e = Ev.read .fetchUsers ∨ e = Ev.read .fetchRoles ∨
      (dry = false ∧ ∃ r ∈ rolesToCreate (parse_desired_users content) db,
        e = Ev.sql (.createRole r)) ∨
      (∃ u ∈ users_to_delete (parse_desired_users content)
          (fetch_existing_users db),
        (lookupA prev u).isSome ∧ e ∈ dropUserEvents u dry) ∨
      (∃ u ∈ users_to_create (parse_desired_users content)
          (fetch_existing_users db),
        ∃ spec, lookupA (parse_desired_users content) u = some spec ∧
          (pw u).isSome ∧ e ∈ createUserEvents spec dry) ∨
      (∃ u ∈ users_to_update (parse_desired_users content)
          (fetch_existing_users db),
        ∃ spec prevSpec,
          lookupA (parse_desired_users content) u = some spec ∧
          lookupA prev u = some prevSpec ∧
          setEqL prevSpec.roles spec.roles = false ∧
          (e = Ev.read (.fetchUserRoles u) ∨
            (setEqL (mem u) spec.roles = false ∧
              e ∈ updateUserRolesEvents u (mem u) spec.roles dry))) := by
  simp only [reconcile_users, List.mem_cons, List.mem_append,
    List.mem_singleton, mem_reconcile_roles_evs, mem_handleDeletions,
    mem_handleCreations, mem_handleUpdates]
  constructor
  · rintro (((((h | h | h) | h) | h) | h) | h | h)
    · exact .inl h
    · exact .inr (.inl h)
    · exact .inr (.inr (.inl h))
    · exact .inr (.inr (.inr (.inl h)))
    · exact .inr (.inr (.inr (.inr (.inl h))))
    · exact .inr (.inr (.inr (.inr (.inr h))))
    · exact .inr (.inl h)
    · exact absurd h (List.not_mem_nil e)
  · rintro (h | h | h | h | h | h)
    · exact .inl (.inl (.inl (.inl (.inl h))))
    · exact .inl (.inl (.inl (.inl (.inr (.inl h)))))
    · exact .inl (.inl (.inl (.inl (.inr (.inr h)))))
    · exact .inl (.inl (.inl (.inr h)))
    · exact .inl (.inl (.inr h))
    · exact .inl (.inr h)

theorem sql_mem_dropUserEvents {d : DDL} {u : String} {dry : Bool}
    (h : Ev.sql d ∈ dropUserEvents u dry) :
    dry = false ∧
      (d = .revokeAllOnDb DB_NAME u ∨ d = .reassignOwned u DB_USER ∨
        d = .dropOwned u ∨ d = .dropUser u) := by
  cases dry with
  | true => simp [dropUserEvents] at h
  | false =>
    refine ⟨rfl, ?_⟩
    simp [dropUserEvents] at h
    tauto

theorem read_not_mem_dropUserEvents (q : ReadQ) (u : String) (dry : Bool) :
    Ev.read q ∉ dropUserEvents u dry := by
  cases dry <;> simp [dropUserEvents]

theorem sql_mem_createUserEvents {d : DDL} {spec : UserSpec} {dry : Bool}
    (h : Ev.sql d ∈ createUserEvents spec dry) :
    dry = false ∧
      (d = .createUser spec.username ∨
        d = .grantConnect spec.database spec.username ∨
        (∃ r ∈ spec.roles, d = .grantRole r spec.username) ∨
        (∃ op ∈ spec.privileges.getD [], ∃ p ∈ op.2,
          d = .grantPriv p op.1 spec.username)) := by
  cases dry with
  | true => simp [createUserEvents] at h
  | false =>
    refine ⟨rfl, ?_⟩
    rw [createUserEvents] at h
    simp only [Bool.false_eq_true, if_false] at h
    rcases List.mem_append.mp h with h | h
    · rcases List.mem_append.mp h with h | h
      · rcases List.mem_cons.mp h with h | h
        · left
          simpa using h
        · right; left
          simpa using h
      · obtain ⟨r, hr, he⟩ := List.mem_map.mp h
        right; right; left
        exact ⟨r, hr, by simpa using he.symm⟩
    · cases hp : spec.privileges with
      | none => rw [hp] at h; simp at h
      | some ps =>
        rw [hp] at h
        simp only [List.mem_flatMap, List.mem_map] at h
        obtain ⟨op, hop, p, hpp, he⟩ := h
        right; right; right
        exact ⟨op, by simp [hp]; exact hop, p, hpp, by simpa using he.symm⟩

theorem read_not_mem_createUserEvents (q : ReadQ) (spec : UserSpec)
    (dry : Bool) : Ev.read q ∉ createUserEvents spec dry := by
  cases dry with
  | true => simp [createUserEvents]
  | false => cases hp : spec.privileges <;> simp [createUserEvents, hp]

theorem sql_mem_updateUserRolesEvents {d : DDL} {u : String}
    {old new : List String} {dry : Bool}
    (h : Ev.sql d ∈ updateUserRolesEvents u old new dry) :
    dry = false ∧
      ((∃ r ∈ old, d = .revokeRole r u) ∨
        (∃ r ∈ new, d = .grantRole r u)) := by
  cases dry with
  | true =>
    rw [updateUserRolesEvents] at h
    split at h
    · simp at h
    · simp at h
  | false =>
    refine ⟨rfl, ?_⟩
    rw [updateUserRolesEvents] at h
    split at h
    · simp at h
    · simp only [Bool.false_eq_true, if_false] at h
      simp only [List.mem_append, List.mem_map, List.mem_filter] at h
      rcases h with ⟨r, ⟨hr, _⟩, he⟩ | ⟨r, ⟨hr, _⟩, he⟩
      · exact Or.inl ⟨r, hr, by simpa using he.symm⟩
      · exact Or.inr ⟨r, hr, by simpa using he.symm⟩

theorem read_not_mem_updateUserRolesEvents (q : ReadQ) (u : String)
    (old new : List String) (dry : Bool) :
    Ev.read q ∉ updateUserRolesEvents u old new dry := by
  rw [updateUserRolesEvents]
  split
  · simp
  · split
    · simp
    · simp [List.mem_append, List.mem_map]

/-- C3: orphan protection — a user absent from the loaded last-applied
state is never dropped; reconcile_users guards every drop_user call by
membership in the previous state. -/
theorem claim_C3_orphan_protection (cfg : Option YamlContent)
    (prev : List (String × UserSpec)) (db : List PgRole)
    (pw : String → Option String) (mem : String → List String)
    (dry : Bool) (u : String) (h : lookupA prev u = none) :
    Ev.sql (DDL.dropUser u) ∉ (reconcile_users cfg prev db pw mem dry).1 := by
  cases cfg with
  | none => simp [reconcile_users]
  | some content =>
    intro hmem
    rcases mem_reconcile_users_evs.mp hmem with h1 | h1 |
      ⟨_, r, _, h1⟩ | ⟨u2, _, h2, h3⟩ | ⟨u2, _, spec, _, _, h2⟩ |
      ⟨u2, _, spec, pspec, _, _, _, h2⟩
    · simp at h1
    · simp at h1
    · simp at h1
    · obtain ⟨_, h4 | h4 | h4 | h4⟩ := sql_mem_dropUserEvents h3
      · simp at h4
      · simp at h4
      · simp at h4
      · obtain rfl : u = u2 := by simpa using h4
        rw [h] at h2
        simp at h2
    · obtain ⟨_, h4 | h4 | ⟨r, _, h4⟩ | ⟨op, _, p, _, h4⟩⟩ :=
        sql_mem_createUserEvents h2 <;> simp at h4
    · rcases h2 with h2 | ⟨_, h2⟩
      · simp at h2
      · obtain ⟨_, ⟨r, _, h4⟩ | ⟨r, _, h4⟩⟩ :=
          sql_mem_updateUserRolesEvents h2 <;> simp at h4

/-- Witness for C3 at a concrete input (scenario: a live user charlie that
is neither desired nor previously applied is not dropped). -/
theorem claim_C3_witness :
    Ev.sql (DDL.dropUser "charlie") ∉
      (reconcile_users (some (.doc [])) [] [⟨"charlie", true⟩]
        (fun _ => none) (fun _ => []) false).1 :=
  claim_C3_orphan_protection (some (.doc [])) [] [⟨"charlie", true⟩]
    (fun _ => none) (fun _ => []) false "charlie" rfl

/-- C7 counterexample: with one unowned live user and an empty desired
spec, the code reports drift 1, while creations plus last-applied
restricted deletions count 0. -/
theorem claim_C7_counterexample :
    (reconcile_users (some (.doc [])) [] [⟨"charlie", true⟩]
        (fun _ => none) (fun _ => []) false).2.1.drift_detected = 1 ∧
      (users_to_create [] ["charlie"]).length +
        ((users_to_delete [] ["charlie"]).filter
          (fun u => (lookupA [] u).isSome)).length = 0 := by
  decide

/-- C7 (amended): the drift count reported by a cycle equals
|users_to_create| plus the size of the UNRESTRICTED live-minus-desired
set, before the deletion loop's restriction to last-applied keys. -/
theorem claim_C7_amended (content : YamlContent)
    (prev : List (String × UserSpec)) (db : List PgRole)
    (pw : String → Option String) (mem : String → List String)
    (dry : Bool) :
    (reconcile_users (some content) prev db pw mem dry).2.1.drift_detected =
      (users_to_create (parse_desired_users content)
        (fetch_existing_users db)).length +
      (users_to_delete (parse_desired_users content)
        (fetch_existing_users db)).length := rfl

/-- C8: dry-run purity — with dry-run active no state is saved, every
event the cycle performs is a read-only query (the reads still run), and
the statistics (the intent-recording counters) are the same as in a
non-dry-run cycle. -/
theorem claim_C8_dry_run_purity (content : YamlContent)
    (prev : List (String × UserSpec)) (db : List PgRole)
    (pw : String → Option String) (mem : String → List String) :
    (reconcile_users (some content) prev db pw mem true).2.2 = none ∧
    (∀ e ∈ (reconcile_users (some content) prev db pw mem true).1,
      e.isRead = true) ∧
    Ev.read .fetchUsers ∈ (reconcile_users (some content) prev db pw mem true).1 ∧
    Ev.read .fetchRoles ∈ (reconcile_users (some content) prev db pw mem true).1 ∧
    (reconcile_users (some content) prev db pw mem true).2.1 =
      (reconcile_users (some content) prev db pw mem false).2.1 := by
  refine ⟨rfl, ?_, ?_, ?_, ?_⟩
  · intro e he
    rcases mem_reconcile_users_evs.mp he with h | h |
      ⟨hdry, _, _, _⟩ | ⟨_, _, _, h⟩ | ⟨_, _, _, _, _, h⟩ |
      ⟨u2, _, _, _, _, _, _, h | ⟨_, h⟩⟩
    · simp [h, Ev.isRead]
    · simp [h, Ev.isRead]
    · exact absurd hdry (by simp)
    · cases e with
      | read q => simp [Ev.isRead]
      | sql d => exact absurd (sql_mem_dropUserEvents h).1 (by simp)
    · cases e with
      | read q => simp [Ev.isRead]
      | sql d => exact absurd (sql_mem_createUserEvents h).1 (by simp)
    · simp [h, Ev.isRead]
    · cases e with
      | read q => simp [Ev.isRead]
      | sql d => exact absurd (sql_mem_updateUserRolesEvents h).1 (by simp)
  · exact mem_reconcile_users_evs.mpr (Or.inl rfl)
  · exact mem_reconcile_users_evs.mpr (Or.inr (Or.inl rfl))
  · simp only [reconcile_users]
    rw [Stats.mk.injEq]
    refine ⟨?_, ?_, ?_, rfl, rfl, rfl, ?_⟩
    · exact congrArg Prod.fst
        (count_handleCreations (parse_desired_users content) pw true _)
    · exact count_handleUpdates (parse_desired_users content) prev mem true _
    · exact count_handleDeletions prev true _
    · exact congrArg Prod.snd
        (count_handleCreations (parse_desired_users content) pw true _)

/-- C10: a user present in both the desired spec and the live set but
absent from the loaded last-applied state gets no role-membership query
and no update_user_roles statements, even when its live memberships
differ from the desired roles. -/
theorem claim_C10_no_update_without_prev (content : YamlContent)
    (prev : List (String × UserSpec)) (db : List PgRole)
    (pw : String → Option String) (mem : String → List String)
    (dry : Bool) (u : String)
    (hdes : u ∈ (parse_desired_users content).map Prod.fst)
    (hlive : u ∈ fetch_existing_users db)
    (hprev : lookupA prev u = none) :
    Ev.read (.fetchUserRoles u) ∉
        (reconcile_users (some content) prev db pw mem dry).1 ∧
      (∀ r, Ev.sql (.revokeRole r u) ∉
        (reconcile_users (some content) prev db pw mem dry).1) ∧
      (∀ r, Ev.sql (.grantRole r u) ∉
        (reconcile_users (some content) prev db pw mem dry).1) := by
  refine ⟨?_, ?_, ?_⟩
  · intro hmem
    rcases mem_reconcile_users_evs.mp hmem with h | h | ⟨_, r, _, h⟩ |
      ⟨u2, _, _, h⟩ | ⟨u2, _, spec, _, _, h⟩ |
      ⟨u2, _, spec, pspec, _, hpv, _, h | ⟨_, h⟩⟩
    · simp at h
    · simp at h
    · simp at h
    · exact read_not_mem_dropUserEvents _ _ _ h
    · exact read_not_mem_createUserEvents _ _ _ h
    · obtain rfl : u2 = u := by simpa using h.symm
      rw [hprev] at hpv
      exact absurd hpv (by simp)
    · exact read_not_mem_updateUserRolesEvents _ _ _ _ _ h
  · intro r hmem
    rcases mem_reconcile_users_evs.mp hmem with h | h | ⟨_, r2, _, h⟩ |
      ⟨u2, _, _, h⟩ | ⟨u2, _, spec, _, _, h⟩ |
      ⟨u2, _, spec, pspec, _, hpv, _, h | ⟨_, h⟩⟩
    · simp at h
    · simp at h
    · simp at h
    · obtain ⟨_, h4 | h4 | h4 | h4⟩ := sql_mem_dropUserEvents h <;> simp at h4
    · obtain ⟨_, h4 | h4 | ⟨r2, _, h4⟩ | ⟨op, _, p, _, h4⟩⟩ :=
        sql_mem_createUserEvents h <;> simp at h4
    · simp at h
    · obtain ⟨_, ⟨r2, _, h4⟩ | ⟨r2, _, h4⟩⟩ := sql_mem_updateUserRolesEvents h
      · obtain ⟨-, rfl⟩ : r = r2 ∧ u = u2 := by simpa using h4
        rw [hprev] at hpv
        exact absurd hpv (by simp)
      · simp at h4
  · intro r hmem
    rcases mem_reconcile_users_evs.mp hmem with h | h | ⟨_, r2, _, h⟩ |
      ⟨u2, _, _, h⟩ | ⟨u2, hu2, spec, hlk, _, h⟩ |
      ⟨u2, _, spec, pspec, _, hpv, _, h | ⟨_, h⟩⟩
    · simp at h
    · simp at h
    · simp at h
    · obtain ⟨_, h4 | h4 | h4 | h4⟩ := sql_mem_dropUserEvents h <;> simp at h4
    · obtain ⟨_, h4 | h4 | ⟨r2, _, h4⟩ | ⟨op, _, p, _, h4⟩⟩ :=
        sql_mem_createUserEvents h
      · simp at h4
      · simp at h4
      · obtain ⟨-, husr⟩ : r = r2 ∧ u = spec.username := by simpa using h4
        have huser : spec.username = u2 := parse_username_eq_key (lookupA_mem hlk)
        have : u2 ∉ fetch_existing_users db :=
          (mem_users_to_create.mp hu2).2
        rw [← huser, ← husr] at this
        exact this hlive
      · simp at h4
    · simp at h
    · obtain ⟨_, ⟨r2, _, h4⟩ | ⟨r2, _, h4⟩⟩ := sql_mem_updateUserRolesEvents h
      · simp at h4
      · obtain ⟨-, rfl⟩ : r = r2 ∧ u = u2 := by simpa using h4
        rw [hprev] at hpv
        exact absurd hpv (by simp)

/-- Witness for C10 at a concrete input (alice is desired and live with a
differing live membership, but absent from last-applied state). -/
theorem claim_C10_witness :
    Ev.read (.fetchUserRoles "alice") ∉
      (reconcile_users (some (.doc [⟨some "alice", some "app", some ["rw"], none⟩]))
        [] [⟨"alice", true⟩] (fun _ => some "p") (fun _ => ["ro"]) false).1 :=
  (claim_C10_no_update_without_prev
    (.doc [⟨some "alice", some "app", some ["rw"], none⟩]) [] [⟨"alice", true⟩]
    (fun _ => some "p") (fun _ => ["ro"]) false "alice"
    (by decide) (by decide) rfl).1

/-- C6: a malformed (or required-field-missing) users.yaml yields an
empty desired spec, so every live user present in the loaded last-applied
state is dropped in that same cycle, and (not in dry-run) the state file
is then overwritten with the empty map. -/
theorem claim_C6_malformed_spec_drops_all (prev : List (String × UserSpec))
    (db : List PgRole) (pw : String → Option String)
    (mem : String → List String) :
    parse_desired_users .malformed = [] ∧
      (∀ rus, (∃ ru ∈ rus, ru.username = none) →
        parse_desired_users (.doc rus) = []) ∧
      (∀ u, u ∈ fetch_existing_users db → (lookupA prev u).isSome →
        Ev.sql (.dropUser u) ∈
          (reconcile_users (some .malformed) prev db pw mem false).1) ∧
      (reconcile_users (some .malformed) prev db pw mem false).2.2 =
        some [] := by
  refine ⟨rfl, ?_, ?_, rfl⟩
  · intro rus hex
    simp [parse_desired_users, buildUsers_missing_username hex]
  · intro u hu hprev
    apply mem_reconcile_users_evs.mpr
    refine Or.inr (Or.inr (Or.inr (Or.inl ⟨u, ?_, hprev, ?_⟩)))
    · rw [mem_users_to_delete]
      exact ⟨hu, by simp [parse_desired_users]⟩
    · simp [dropUserEvents]

/-- Witness for C6 at a concrete input (scenario: owned live user bob is
dropped when the spec turns malformed). -/
theorem claim_C6_witness :
    Ev.sql (DDL.dropUser "bob") ∈
      (reconcile_users (some .malformed)
        [("bob", ⟨"bob", "postgres", [], none⟩)] [⟨"bob", true⟩]
        (fun _ => none) (fun _ => []) false).1 :=
  (claim_C6_malformed_spec_drops_all
    [("bob", ⟨"bob", "postgres", [], none⟩)] [⟨"bob", true⟩]
    (fun _ => none) (fun _ => [])).2.2.1 "bob" (by decide) (by decide)

/-- C2 counterexample: a desired spec that names the denylisted
identifier postgres as a username leads the cycle to issue CREATE USER
against it (the denylist filters the live view, not the desired spec). -/
theorem claim_C2_counterexample :
    Ev.sql (DDL.createUser "postgres") ∈
        (reconcile_users
          (some (.doc [⟨some "postgres", some "app", some [], none⟩]))
          [] [] (fun _ => some "pw") (fun _ => []) false).1 ∧
      "postgres" ∈ SYSTEM_ROLES := by
  decide

/-- C2 (amended): deletion-side DDL can never target a denylisted
identifier (the live view excludes the denylist), and provided the
desired spec names no denylisted identifier as a username or role and the
live role-membership map reports no denylisted role, no DDL statement of
the kinds CREATE / GRANT / REVOKE / DROP issued by a cycle targets a
denylisted identifier.  Without those provisos the creation and update
paths can target one, as the counterexample shows. -/
theorem claim_C2_amended (content : YamlContent)
    (prev : List (String × UserSpec)) (db : List PgRole)
    (pw : String → Option String) (mem : String → List String)
    (dry : Bool)
    (hdesired : ∀ kv ∈ parse_desired_users content,
      kv.1 ∉ SYSTEM_ROLES ∧ ∀ r ∈ kv.2.roles, r ∉ SYSTEM_ROLES)
    (hmem : ∀ u r, r ∈ mem u → r ∉ SYSTEM_ROLES) :
    ∀ d, Ev.sql d ∈ (reconcile_users (some content) prev db pw mem dry).1 →
      ∀ x ∈ d.roleTargets, x ∉ SYSTEM_ROLES := by
  intro d hd x hx
  rcases mem_reconcile_users_evs.mp hd with h | h | ⟨_, r, hr, he⟩ |
    ⟨u2, hu2, _, he⟩ | ⟨u2, hu2, spec, hlk, _, he⟩ |
    ⟨u2, hu2, spec, pspec, hlk, _, _, he | ⟨_, he⟩⟩
  · simp at h
  · simp at h
  · obtain rfl : d = DDL.createRole r := by simpa using he
    simp only [DDL.roleTargets, List.mem_singleton] at hx
    subst hx
    obtain ⟨kv, hkv, hrr⟩ := mem_rolesToCreate hr
    exact (hdesired kv hkv).2 x hrr
  · have hu2' : u2 ∉ SYSTEM_ROLES :=
      (mem_fetch_existing_users.mp (mem_users_to_delete.mp hu2).1).2
    obtain ⟨_, h4 | h4 | h4 | h4⟩ := sql_mem_dropUserEvents he
    · subst h4
      simp only [DDL.roleTargets, List.mem_singleton] at hx
      subst hx
      exact hu2'
    · subst h4
      simp [DDL.roleTargets] at hx
    · subst h4
      simp only [DDL.roleTargets, List.mem_singleton] at hx
      subst hx
      exact hu2'
    · subst h4
      simp only [DDL.roleTargets, List.mem_singleton] at hx
      subst hx
      exact hu2'
  · have hkv := lookupA_mem hlk
    have huser : spec.username = u2 := parse_username_eq_key hkv
    have hu2' : u2 ∉ SYSTEM_ROLES := (hdesired _ hkv).1
    obtain ⟨_, h4 | h4 | ⟨r, hrr, h4⟩ | ⟨op, _, p, _, h4⟩⟩ :=
      sql_mem_createUserEvents he
    · subst h4
      simp only [DDL.roleTargets, List.mem_singleton] at hx
      subst hx
      rw [huser]
      exact hu2'
    · subst h4
      simp only [DDL.roleTargets, List.mem_singleton] at hx
      subst hx
      rw [huser]
      exact hu2'
    · subst h4
      simp only [DDL.roleTargets, List.mem_cons, List.mem_singleton,
        List.not_mem_nil, or_false] at hx
      rcases hx with hx | hx
      · subst hx
        exact (hdesired _ hkv).2 x hrr
      · subst hx
        rw [huser]
        exact hu2'
    · subst h4
      simp only [DDL.roleTargets, List.mem_singleton] at hx
      subst hx
      rw [huser]
      exact hu2'
  · simp at he
  · have hu2' : u2 ∉ SYSTEM_ROLES := by
      obtain ⟨hk, _⟩ := mem_users_to_update.mp hu2
      obtain ⟨kv, hkv, hfst⟩ := List.mem_map.mp hk
      rw [← hfst]
      exact (hdesired kv hkv).1
    obtain ⟨_, ⟨r, hrm, h4⟩ | ⟨r, hrm, h4⟩⟩ := sql_mem_updateUserRolesEvents he
    · subst h4
      simp only [DDL.roleTargets, List.mem_cons, List.mem_singleton,
        List.not_mem_nil, or_false] at hx
      rcases hx with hx | hx
      · subst hx
        exact hmem u2 x hrm
      · subst hx
        exact hu2'
    · subst h4
      simp only [DDL.roleTargets, List.mem_cons, List.mem_singleton,
        List.not_mem_nil, or_false] at hx
      rcases hx with hx | hx
      · subst hx
        exact (hdesired _ (lookupA_mem hlk)).2 x hrm
      · subst hx
        exact hu2'

/-- Witness for C2 (amended) at a concrete input. -/
theorem claim_C2_witness :
    "alice" ∉ SYSTEM_ROLES :=
  claim_C2_amended (.doc [⟨some "alice", some "app", some ["ro"], none⟩])
    [] [] (fun _ => some "p") (fun _ => []) false
    (by decide) (fun u r hr => absurd hr (List.not_mem_nil r))
    (DDL.createUser "alice") (by decide) "alice" (by decide)

/-!
### Lemmas for the state-file JSON codec
-/

theorem pStrAux_append {s rest : List Char} (h : '"' ∉ s) :
    pStrAux (s ++ '"' :: rest) = some (s, rest) := by
  induction s with
  | nil => simp [pStrAux]
  | cons c r ih =>
    have hc : ¬ c = '"' := fun hc => h (hc ▸ List.mem_cons_self c r)
    have hr : '"' ∉ r := fun hr => h (List.mem_cons_of_mem c hr)
    simp [pStrAux, hc, ih hr]

theorem pStr_rStr {s : String} {rest : List Char} (h : '"' ∉ s.data) :
    pStr (rStr s ++ rest) = some (s, rest) := by
  have : rStr s ++ rest = '"' :: (s.data ++ '"' :: rest) := by
    simp [rStr]
  rw [this]
  simp [pStr, pStrAux_append h]

theorem pLit_append (pat rest : List Char) :
    pLit pat (pat ++ rest) = some rest := by
  induction pat with
  | nil => simp [pLit]
  | cons p ps ih => simp [pLit, ih]

theorem pStr_length {cs : List Char} {s : String} {rest : List Char}
    (h : pStr cs = some (s, rest)) : rest.length < cs.length := by
  have aux : ∀ (cs2 : List Char) (b : List Char × List Char),
      pStrAux cs2 = some b → b.2.length < cs2.length := by
    intro cs2
    induction cs2 with
    | nil => intro b hb; simp [pStrAux] at hb
    | cons c r ih =>
      intro b hb
      by_cases hc : c = '"'
      · subst hc
        simp [pStrAux] at hb
        simp [← hb]
      · simp only [pStrAux, if_neg hc, Option.map_eq_some'] at hb
        obtain ⟨p, hp, rfl⟩ := hb
        exact Nat.lt_succ_of_lt (ih p hp)
  cases cs with
  | nil => simp [pStr] at h
  | cons c r =>
    by_cases hc : c = '"'
    · subst hc
      have hstep : pStr ('"' :: r) =
          (pStrAux r).map (fun p => (String.mk p.1, p.2)) := rfl
      rw [hstep, Option.map_eq_some'] at h
      obtain ⟨p, hp, heq⟩ := h
      have := aux r p hp
      have h2 : p.2 = rest := by
        rw [Prod.ext_iff] at heq
        exact heq.2
      rw [h2] at this
      exact Nat.lt_succ_of_lt this
    · simp [pStr, hc] at h

theorem pStrItems_joinSep {l : List String} {rest : List Char}
    (hne : l ≠ []) (hq : ∀ s ∈ l, '"' ∉ s.data) :
    ∀ n, l.length ≤ n →
      pStrItems n (joinSep commaSp (l.map rStr) ++ ']' :: rest) =
        some (l, rest) := by
  induction l with
  | nil => exact absurd rfl hne
  | cons s tl ih =>
    intro n hn
    have hpos : 1 ≤ n := le_trans (by simp : 1 ≤ (s :: tl).length) hn
    obtain ⟨m, rfl⟩ : ∃ m, n = m + 1 := ⟨n - 1, by omega⟩
    have hqs : '"' ∉ s.data := hq s (List.mem_cons_self s tl)
    cases tl with
    | nil =>
      simp only [List.map_cons, List.map_nil, joinSep]
      rw [pStrItems]
      rw [pStr_rStr hqs]
      rfl
    | cons t ts =>
      simp only [List.map_cons, joinSep]
      rw [pStrItems]
      have hassoc :
          (rStr s ++ commaSp ++ joinSep commaSp (rStr t :: ts.map rStr))
              ++ ']' :: rest =
            rStr s ++ (',' :: ' ' ::
              (joinSep commaSp (rStr t :: ts.map rStr) ++ ']' :: rest)) := by
        simp [commaSp, List.append_assoc]
      rw [hassoc, pStr_rStr hqs]
      have ihq : ∀ x ∈ t :: ts, '"' ∉ x.data :=
        fun x hx => hq x (List.mem_cons_of_mem s hx)
      have ihlen : (t :: ts).length ≤ m := by
        simp only [List.length_cons] at hn ⊢
        omega
      have := ih (by simp) ihq m ihlen
      simp only [List.map_cons] at this
      simp [this]

theorem pStrList_bracket {n : Nat} {X : List Char} (h : X.head? = some '"') :
    pStrList n ('[' :: X) = pStrItems n X := by
  cases X with
  | nil => simp at h
  | cons c r =>
    obtain rfl : c = '"' := by simpa using h
    rfl

theorem pStrList_rStrList {l : List String} {n : Nat} {rest : List Char}
    (hq : ∀ s ∈ l, '"' ∉ s.data) (hn : l.length ≤ n) :
    pStrList n (rStrList l ++ rest) = some (l, rest) := by
  cases l with
  | nil => rfl
  | cons s tl =>
    have hshape : rStrList (s :: tl) ++ rest =
        '[' :: (joinSep commaSp ((s :: tl).map rStr) ++ ']' :: rest) := by
      simp [rStrList, List.append_assoc]
    rw [hshape]
    have hhead : (joinSep commaSp ((s :: tl).map rStr) ++ ']' :: rest).head? =
        some '"' := by
      cases tl with
      | nil => simp [joinSep, rStr]
      | cons t ts => simp [joinSep, rStr]
    rw [pStrList_bracket hhead]
    exact pStrItems_joinSep (by simp) hq n hn

theorem pPrivItems_joinSep {ps : List (String × List String)}
    {rest : List Char} (hne : ps ≠ [])
    (hq : ∀ op ∈ ps, '"' ∉ op.1.data ∧ ∀ w ∈ op.2, '"' ∉ w.data) :
    ∀ n, ps.length + (ps.map (fun op => op.2.length)).sum ≤ n →
      pPrivItems n (joinSep commaSp (ps.map privItemRender)
          ++ rbraceC :: rest) =
        some (ps, rest) := by
  induction ps with
  | nil => exact absurd rfl hne
  | cons op tl ih =>
    intro n hn
    have hpos : 1 ≤ n := by
      simp only [List.length_cons, List.map_cons, List.sum_cons] at hn
      omega
    obtain ⟨m, rfl⟩ : ∃ m, n = m + 1 := ⟨n - 1, by omega⟩
    have hqk : '"' ∉ op.1.data := (hq op (List.mem_cons_self op tl)).1
    have hqv : ∀ w ∈ op.2, '"' ∉ w.data := (hq op (List.mem_cons_self op tl)).2
    have hval : op.2.length ≤ m := by
      simp only [List.length_cons, List.map_cons, List.sum_cons] at hn
      omega
    cases tl with
    | nil =>
      simp only [List.map_cons, List.map_nil, joinSep]
      rw [pPrivItems]
      have hassoc : privItemRender op ++ rbraceC :: rest =
          rStr op.1 ++ (colonSp ++ (rStrList op.2 ++ rbraceC :: rest)) := by
        simp [privItemRender, List.append_assoc]
      rw [hassoc, pStr_rStr hqk]
      simp only [Option.some_bind]
      rw [pLit_append]
      simp only [Option.some_bind]
      rw [pStrList_rStrList hqv hval]
      simp
    | cons op2 tl2 =>
      simp only [List.map_cons, joinSep]
      rw [pPrivItems]
      have hassoc :
          (privItemRender op ++ commaSp
              ++ joinSep commaSp (privItemRender op2 :: tl2.map privItemRender))
            ++ rbraceC :: rest =
          rStr op.1 ++ (colonSp ++ (rStrList op.2 ++ ',' :: ' ' ::
            (joinSep commaSp (privItemRender op2 :: tl2.map privItemRender)
              ++ rbraceC :: rest))) := by
        simp [privItemRender, commaSp, List.append_assoc]
      rw [hassoc, pStr_rStr hqk]
      simp only [Option.some_bind]
      rw [pLit_append]
      simp only [Option.some_bind]
      rw [pStrList_rStrList hqv hval]
      have ihq : ∀ x ∈ op2 :: tl2, '"' ∉ x.1.data ∧ ∀ w ∈ x.2, '"' ∉ w.data :=
        fun x hx => hq x (List.mem_cons_of_mem op hx)
      have ihlen : (op2 :: tl2).length
          + ((op2 :: tl2).map (fun x => x.2.length)).sum ≤ m := by
        simp only [List.length_cons, List.map_cons, List.sum_cons] at hn ⊢
        omega
      have := ih (by simp) ihq m ihlen
      simp only [List.map_cons] at this
      have hne2 : ¬ rbraceC = ']' := by decide
      have hne3 : ¬ ',' = rbraceC := by decide
      simp [this, hne2, hne3]

theorem pPriv_null (n : Nat) (rest : List Char) :
    pPriv n (rPriv none ++ rest) = some (none, rest) := rfl

theorem pPriv_empty (n : Nat) (rest : List Char) :
    pPriv n (rPriv (some []) ++ rest) = some (some [], rest) := by
  have : rPriv (some []) ++ rest = lbraceC :: rbraceC :: rest := by
    simp [rPriv, joinSep]
  rw [this]
  rfl

theorem pPriv_brace {n : Nat} {X : List Char} (h : X.head? = some '"') :
    pPriv n (lbraceC :: X) =
      (pPrivItems n X).map (fun lr => (some lr.1, lr.2)) := by
  cases X with
  | nil => simp at h
  | cons c r =>
    obtain rfl : c = '"' := by simpa using h
    rfl

theorem pPriv_rPriv {p : Option (List (String × List String))} {n : Nat}
    {rest : List Char}
    (hq : ∀ op ∈ p.getD [], '"' ∉ op.1.data ∧ ∀ w ∈ op.2, '"' ∉ w.data)
    (hn : (p.getD []).length
      + ((p.getD []).map (fun op => op.2.length)).sum ≤ n) :
    pPriv n (rPriv p ++ rest) = some (p, rest) := by
  cases p with
  | none => exact pPriv_null n rest
  | some ps =>
    simp only [Option.getD_some] at hq hn
    cases ps with
    | nil => exact pPriv_empty n rest
    | cons op tl =>
      have hshape : rPriv (some (op :: tl)) ++ rest =
          lbraceC :: (joinSep commaSp ((op :: tl).map privItemRender)
            ++ rbraceC :: rest) := by
        simp [rPriv, List.append_assoc]
      rw [hshape]
      have hhead : (joinSep commaSp ((op :: tl).map privItemRender)
          ++ rbraceC :: rest).head? = some '"' := by
        cases tl with
        | nil => simp [joinSep, privItemRender, rStr]
        | cons op2 tl2 => simp [joinSep, privItemRender, rStr]
      rw [pPriv_brace hhead]
      rw [pPrivItems_joinSep (by simp) hq n hn]
      rfl

theorem pRec_step (n : Nat) (X : List Char) :
    pRec n (lbraceC :: X) =
      (pLit kUserKey X).bind (fun r1 =>
        (pStr r1).bind (fun ur =>
          (pLit kDbKey ur.2).bind (fun r2 =>
            (pStr r2).bind (fun dr =>
              (pLit kRolesKey dr.2).bind (fun r3 =>
                (pStrList n r3).bind (fun rr =>
                  (pLit kPrivKey rr.2).bind (fun r4 =>
                    (pPriv n r4).bind (fun pr =>
                      match pr.2 with
                      | [] => none
                      | c2 :: r5 =>
                        if c2 = rbraceC then
                          some (⟨ur.1, dr.1, rr.1, pr.1⟩, r5)
                        else none)))))))) := rfl

theorem pRec_rRec {v : UserSpec} {n : Nat} {rest : List Char}
    (hq : noQuoteRec v) (hn : recBound v n) :
    pRec n (rRec v ++ rest) = some (v, rest) := by
  obtain ⟨hqu, hqd, hqr, hqp⟩ := hq
  obtain ⟨hnr, hnp⟩ := hn
  have hshape : rRec v ++ rest =
      lbraceC :: (kUserKey ++ (rStr v.username ++ (kDbKey ++ (rStr v.database
        ++ (kRolesKey ++ (rStrList v.roles ++ (kPrivKey
          ++ (rPriv v.privileges ++ rbraceC :: rest)))))))) := by
    simp [rRec, kUserKey, kDbKey, kRolesKey, kPrivKey, List.append_assoc]
  rw [hshape, pRec_step, pLit_append]
  simp only [Option.some_bind]
  rw [pStr_rStr hqu]
  simp only [Option.some_bind]
  rw [pLit_append]
  simp only [Option.some_bind]
  rw [pStr_rStr hqd]
  simp only [Option.some_bind]
  rw [pLit_append]
  simp only [Option.some_bind]
  rw [pStrList_rStrList hqr hnr]
  simp only [Option.some_bind]
  rw [pLit_append]
  simp only [Option.some_bind]
  rw [pPriv_rPriv hqp hnp]
  simp only [Option.some_bind]
  simp

theorem pEntries_joinSep {m : List (String × UserSpec)} {rest : List Char}
    {inner : Nat} (hne : m ≠ [])
    (hq : ∀ kv ∈ m, '"' ∉ kv.1.data ∧ noQuoteRec kv.2)
    (hb : ∀ kv ∈ m, recBound kv.2 inner) :
    ∀ nE, m.length ≤ nE →
      pEntries inner nE (joinSep commaSp (m.map entryRender)
          ++ rbraceC :: rest) =
        some (m, rest) := by
  induction m with
  | nil => exact absurd rfl hne
  | cons kv tl ih =>
    intro nE hn
    have hpos : 1 ≤ nE := le_trans (by simp : 1 ≤ (kv :: tl).length) hn
    obtain ⟨m2, rfl⟩ : ∃ m2, nE = m2 + 1 := ⟨nE - 1, by omega⟩
    have hqk : '"' ∉ kv.1.data := (hq kv (List.mem_cons_self kv tl)).1
    have hqrec : noQuoteRec kv.2 := (hq kv (List.mem_cons_self kv tl)).2
    have hbk : recBound kv.2 inner := hb kv (List.mem_cons_self kv tl)
    cases tl with
    | nil =>
      simp only [List.map_cons, List.map_nil, joinSep]
      rw [pEntries]
      have hassoc : entryRender kv ++ rbraceC :: rest =
          rStr kv.1 ++ (colonSp ++ (rRec kv.2 ++ rbraceC :: rest)) := by
        simp [entryRender, List.append_assoc]
      rw [hassoc, pStr_rStr hqk]
      simp only [Option.some_bind]
      rw [pLit_append]
      simp only [Option.some_bind]
      rw [pRec_rRec hqrec hbk]
      simp
    | cons kv2 tl2 =>
      simp only [List.map_cons, joinSep]
      rw [pEntries]
      have hassoc :
          (entryRender kv ++ commaSp
              ++ joinSep commaSp (entryRender kv2 :: tl2.map entryRender))
            ++ rbraceC :: rest =
          rStr kv.1 ++ (colonSp ++ (rRec kv.2 ++ ',' :: ' ' ::
            (joinSep commaSp (entryRender kv2 :: tl2.map entryRender)
              ++ rbraceC :: rest))) := by
        simp [entryRender, commaSp, List.append_assoc]
      rw [hassoc, pStr_rStr hqk]
      simp only [Option.some_bind]
      rw [pLit_append]
      simp only [Option.some_bind]
      rw [pRec_rRec hqrec hbk]
      have ihq : ∀ x ∈ kv2 :: tl2, '"' ∉ x.1.data ∧ noQuoteRec x.2 :=
        fun x hx => hq x (List.mem_cons_of_mem kv hx)
      have ihb : ∀ x ∈ kv2 :: tl2, recBound x.2 inner :=
        fun x hx => hb x (List.mem_cons_of_mem kv hx)
      have ihlen : (kv2 :: tl2).length ≤ m2 := by
        simp only [List.length_cons] at hn ⊢
        omega
      have := ih (by simp) ihq ihb m2 ihlen
      simp only [List.map_cons] at this
      have hne3 : ¬ ',' = rbraceC := by decide
      simp [this, hne3]

theorem pState_brace {X : List Char} (h : X.head? = some '"') :
    pState (lbraceC :: X) =
      pEntries ((lbraceC :: X).length + 1) ((lbraceC :: X).length + 1) X := by
  cases X with
  | nil => simp at h
  | cons c r =>
    obtain rfl : c = '"' := by simpa using h
    rfl

theorem le_joinSep_of_mem {sep : List Char} {l : List (List Char)}
    {x : List Char} (hx : x ∈ l) :
    x.length ≤ (joinSep sep l).length := by
  induction l with
  | nil => simp at hx
  | cons y tl ih =>
    cases tl with
    | nil =>
      obtain rfl : x = y := by simpa using hx
      simp [joinSep]
    | cons z tl2 =>
      simp only [joinSep, List.length_append]
      rcases List.mem_cons.mp hx with rfl | hx
      · omega
      · have := ih hx
        omega

theorem length_le_joinSep {sep : List Char} {l : List (List Char)}
    (h1 : ∀ x ∈ l, 1 ≤ x.length) :
    l.length ≤ (joinSep sep l).length := by
  induction l with
  | nil => simp [joinSep]
  | cons y tl ih =>
    cases tl with
    | nil => simpa [joinSep] using h1 y (by simp)
    | cons z tl2 =>
      have hy := h1 y (by simp)
      have hrec := ih (fun x hx => h1 x (List.mem_cons_of_mem _ hx))
      simp only [joinSep, List.length_append, List.length_cons] at hrec ⊢
      omega

theorem sum_add_length_le_joinSep {α : Type} {l : List α} {f : α → List Char}
    {g : α → Nat} (h : ∀ x ∈ l, g x + 1 ≤ (f x).length) :
    (l.map g).sum + l.length ≤ (joinSep commaSp (l.map f)).length := by
  induction l with
  | nil => simp [joinSep]
  | cons y tl ih =>
    cases tl with
    | nil =>
      have := h y (by simp)
      simp only [List.map_cons, List.map_nil, List.sum_cons, List.sum_nil,
        joinSep, List.length_cons, List.length_nil]
      omega
    | cons z tl2 =>
      have hy := h y (by simp)
      have hrec := ih (fun x hx => h x (List.mem_cons_of_mem _ hx))
      simp only [List.map_cons, List.sum_cons, joinSep, List.length_append,
        List.length_cons, commaSp] at hrec ⊢
      omega

theorem length_le_rStrList (l : List String) :
    l.length ≤ (rStrList l).length := by
  cases l with
  | nil => simp [rStrList, joinSep]
  | cons s tl =>
    have h1 : ∀ x ∈ (s :: tl).map rStr, 1 ≤ x.length := by
      intro x hx
      obtain ⟨y, _, rfl⟩ := List.mem_map.mp hx
      simp [rStr]
    have := @length_le_joinSep commaSp _ h1
    simp only [List.length_map] at this
    simp only [rStrList, List.length_cons, List.length_append,
      List.length_nil] at this ⊢
    omega

theorem roles_length_le_rRec (v : UserSpec) :
    v.roles.length ≤ (rRec v).length := by
  have h := length_le_rStrList v.roles
  simp only [rRec, List.length_cons, List.length_append]
  omega

theorem priv_le_rPriv (ps : List (String × List String)) :
    ps.length + (ps.map (fun op => op.2.length)).sum ≤
      (rPriv (some ps)).length := by
  have h : ∀ op ∈ ps, (fun op : String × List String => op.2.length) op + 1 ≤
      (privItemRender op).length := by
    intro op _
    have := length_le_rStrList op.2
    simp only [privItemRender, rStr, colonSp, List.length_append,
      List.length_cons]
    simp only [List.length_cons, List.length_nil] at this ⊢
    omega
  have := sum_add_length_le_joinSep h
  simp only [rPriv, List.length_cons, List.length_append]
  omega

theorem priv_le_rRec (v : UserSpec) (ps : List (String × List String))
    (hp : v.privileges = some ps) :
    ps.length + (ps.map (fun op => op.2.length)).sum ≤ (rRec v).length := by
  have h := priv_le_rPriv ps
  simp only [rRec, hp, List.length_cons, List.length_append]
  omega

theorem rRec_le_entryRender (kv : String × UserSpec) :
    (rRec kv.2).length ≤ (entryRender kv).length := by
  simp only [entryRender, List.length_append]
  omega

theorem entry_le_renderState {m : List (String × UserSpec)}
    {kv : String × UserSpec} (hkv : kv ∈ m) :
    (entryRender kv).length ≤ (renderState m).length := by
  have := @le_joinSep_of_mem commaSp _ _
    (List.mem_map_of_mem entryRender hkv)
  simp only [renderState, List.length_cons, List.length_append]
  omega

theorem length_le_renderState (m : List (String × UserSpec)) :
    m.length ≤ (renderState m).length := by
  have h1 : ∀ x ∈ m.map entryRender, 1 ≤ x.length := by
    intro x hx
    obtain ⟨kv, _, rfl⟩ := List.mem_map.mp hx
    simp only [entryRender, rStr, List.length_append, List.length_cons]
    omega
  have := @length_le_joinSep commaSp _ h1
  simp only [List.length_map] at this
  simp only [renderState, List.length_cons, List.length_append]
  omega

theorem recBound_renderState {m : List (String × UserSpec)}
    {kv : String × UserSpec} (hkv : kv ∈ m) :
    recBound kv.2 ((renderState m).length + 1) := by
  have hchain : (rRec kv.2).length ≤ (renderState m).length :=
    le_trans (rRec_le_entryRender kv) (entry_le_renderState hkv)
  constructor
  · have := roles_length_le_rRec kv.2
    omega
  · cases hp : kv.2.privileges with
    | none => simp [hp]
    | some ps =>
      have := priv_le_rRec kv.2 ps hp
      simp only [hp, Option.getD_some]
      omega

theorem noQuote_of_wfIdent {s : String} (h : wfIdent s = true) :
    '"' ∉ s.data := by
  intro hmem
  cases hd : s.data with
  | nil => rw [hd] at hmem; simp at hmem
  | cons c r =>
    have h2 : ((c.isAlpha || c = '_') && r.all isIdentChar) = true := by
      rw [wfIdent, hd] at h
      exact h
    rw [hd] at hmem
    simp only [Bool.and_eq_true] at h2
    rcases List.mem_cons.mp hmem with hc | hc
    · rw [← hc] at h2
      exact absurd h2.1 (by decide)
    · have := List.all_eq_true.mp h2.2 _ hc
      exact absurd this (by decide)

theorem noQuoteRec_of_wfRecord {v : UserSpec} (h : wfRecord v = true) :
    noQuoteRec v := by
  simp only [wfRecord, Bool.and_eq_true] at h
  obtain ⟨⟨⟨h1, h2⟩, h3⟩, h4⟩ := h
  refine ⟨noQuote_of_wfIdent h1, noQuote_of_wfIdent h2, ?_, ?_⟩
  · intro r hr
    exact noQuote_of_wfIdent (List.all_eq_true.mp h3 _ hr)
  · cases hp : v.privileges with
    | none => simp [hp]
    | some ps =>
      simp only [hp] at h4
      simp only [hp, Option.getD_some]
      intro op hop
      have := List.all_eq_true.mp h4 _ hop
      simp only [Bool.and_eq_true] at this
      exact ⟨noQuote_of_wfIdent this.1,
        fun w hw => noQuote_of_wfIdent (List.all_eq_true.mp this.2 _ hw)⟩

theorem pState_renderState {m : List (String × UserSpec)}
    (hq : ∀ kv ∈ m, '"' ∉ kv.1.data ∧ noQuoteRec kv.2) :
    pState (renderState m) = some (m, []) := by
  cases m with
  | nil => rfl
  | cons kv tl =>
    have hshape : renderState (kv :: tl) =
        lbraceC :: (joinSep commaSp ((kv :: tl).map entryRender)
          ++ rbraceC :: []) := by
      simp [renderState]
    have hhead : (joinSep commaSp ((kv :: tl).map entryRender)
        ++ rbraceC :: []).head? = some '"' := by
      cases tl with
      | nil => simp [joinSep, entryRender, rStr]
      | cons kv2 tl2 => simp [joinSep, entryRender, rStr]
    rw [hshape, pState_brace hhead]
    refine pEntries_joinSep (by simp)
      (fun x hx => hq x hx)
      (fun x hx => ?_) _ ?_
    · have := recBound_renderState hx
      rw [hshape] at this
      simpa using this
    · have := length_le_renderState (kv :: tl)
      rw [hshape] at this
      simp only [List.length_cons] at this ⊢
      omega

theorem loadFromText_renderState {m : List (String × UserSpec)}
    (hw : WfState m) : loadFromText (renderState m) = m := by
  obtain ⟨-, hw2⟩ := hw
  have hq : ∀ kv ∈ m, '"' ∉ kv.1.data ∧ noQuoteRec kv.2 :=
    fun kv hkv => ⟨noQuote_of_wfIdent (hw2 kv hkv).1,
      noQuoteRec_of_wfRecord (hw2 kv hkv).2⟩
  rw [loadFromText, pState_renderState hq]

/-- C9: round-trip of persisted state — loading immediately after a
successful save returns exactly the mapping that was saved, for every
spec of well-formed User Records. -/
theorem claim_C9_round_trip (m : List (String × UserSpec))
    (c0 : Option (List Char)) (hw : WfState m) :
    load_state (save_state m ⟨c0, none⟩) = m := by
  have hsv : save_state m ⟨c0, none⟩ =
      ⟨some (renderState m), none⟩ := rfl
  rw [hsv]
  exact loadFromText_renderState hw

/-- Witness for C9 at a concrete two-user state. -/
theorem claim_C9_witness :
    WfState [("alice", ⟨"alice", "appdb", ["ro"], some [("pub", ["USAGE"])]⟩),
             ("bob", ⟨"bob", "appdb", [], none⟩)] ∧
      load_state (save_state
        [("alice", ⟨"alice", "appdb", ["ro"], some [("pub", ["USAGE"])]⟩),
         ("bob", ⟨"bob", "appdb", [], none⟩)] ⟨some ['x'], none⟩) =
        [("alice", ⟨"alice", "appdb", ["ro"], some [("pub", ["USAGE"])]⟩),
         ("bob", ⟨"bob", "appdb", [], none⟩)] :=
  ⟨by unfold WfState; decide, claim_C9_round_trip _ (some ['x'])
    (by unfold WfState; decide)⟩

/-- C5 counterexample: save_state writes the dump straight into the
truncating-open state file, so an IO failure right after the open leaves
an empty file: the previously persisted content is destroyed and a
subsequent load returns the empty map, not the prior state. -/
theorem claim_C5_counterexample :
    (save_state [("a", UserSpec.mk "a" "d" [] none)]
        ⟨some (renderState [("b", UserSpec.mk "b" "d" [] none)]), some 0⟩).content =
      some [] ∧
    some ([] : List Char) ≠
      some (renderState [("b", UserSpec.mk "b" "d" [] none)]) ∧
    load_state (save_state [("a", UserSpec.mk "a" "d" [] none)]
        ⟨some (renderState [("b", UserSpec.mk "b" "d" [] none)]), some 0⟩) = [] ∧
    load_state ⟨some (renderState [("b", UserSpec.mk "b" "d" [] none)]), some 0⟩ =
      [("b", UserSpec.mk "b" "d" [] none)] := by
  decide

/-- C5 (amended): save_state does not use a sibling-temp-and-rename; it
opens the state file in truncating write mode and dumps into it directly.
On success the file holds exactly the new dump (and a load returns the
saved spec), but an IO failure after k written characters leaves the file
holding a k-character prefix of the NEW dump — the previously persisted
state is not preserved. -/
theorem claim_C5_amended (m : List (String × UserSpec)) (w : Fs)
    (hw : WfState m) :
    (w.failAt = none →
      (save_state m w).content = some (renderState m) ∧
        load_state (save_state m w) = m) ∧
    (∀ k, w.failAt = some k →
      (save_state m w).content = some ((renderState m).take k)) := by
  constructor
  · intro hfail
    have hsv : save_state m w = { w with content := some (renderState m) } := by
      simp only [save_state, hfail]
    rw [hsv]
    exact ⟨rfl, loadFromText_renderState hw⟩
  · intro k hfail
    simp only [save_state, hfail]

/-- Witness for C5 (amended) at a concrete input, exercising the failing
write. -/
theorem claim_C5_witness :
    (save_state [("a", UserSpec.mk "a" "d" [] none)]
        ⟨some ['x'], some 2⟩).content =
      some ((renderState [("a", UserSpec.mk "a" "d" [] none)]).take 2) :=
  (claim_C5_amended [("a", UserSpec.mk "a" "d" [] none)]
    ⟨some ['x'], some 2⟩ (by unfold WfState; decide)).2 2 rfl

/-- Witness for C8 at a concrete input. -/
theorem claim_C8_witness :
    (reconcile_users (some (.doc [⟨some "alice", some "app", some ["ro"], none⟩]))
        [] [] (fun _ => some "p") (fun _ => []) true).2.2 = none ∧
      Ev.isRead (Ev.read .fetchUsers) = true :=
  ⟨(claim_C8_dry_run_purity (.doc [⟨some "alice", some "app", some ["ro"], none⟩])
      [] [] (fun _ => some "p") (fun _ => [])).1,
   (claim_C8_dry_run_purity (.doc [⟨some "alice", some "app", some ["ro"], none⟩])
      [] [] (fun _ => some "p") (fun _ => [])).2.1 _
     (claim_C8_dry_run_purity (.doc [⟨some "alice", some "app", some ["ro"], none⟩])
        [] [] (fun _ => some "p") (fun _ => [])).2.2.1⟩

end Controller
